import Mathlib

/-!
# Result extraction and overlap aggregation of `tools/internal/pkg/result/result.go`

A shallow embedding of the Go package `result` and proofs about it.

Modelling conventions.

* A Go `string` is a `List Char` (`GoString`).  The functions of the Go
  package `strings` that the source calls are defined below on that type.
* A Go `map` is an association list with pairwise distinct keys; the order
  of the list is the order in which a `range` loop visits the entries.  A
  `nil` map is `none` where the source can observe the difference.
* `float32` and `float64` values are rational numbers: arithmetic is exact,
  rounding, infinities and NaN are outside the model.  The library function
  `strconv.ParseFloat` is a parameter `parseFloat : GoString → Option ℚ`
  (`none` is a returned error).
* A Go function either returns its result tuple or stops with a run-time
  panic (`Run`).  A Go `error` result is an `Option Err`.
-/

set_option autoImplicit false

namespace Result

/-! ## Strings -/

/-- A Go string. -/
abbrev GoString := List Char

/-- The Go function `strings.HasPrefix`. -/
def hasPrefixStr (s pre : GoString) : Bool := pre.isPrefixOf s

/-- The Go function `strings.HasSuffix`. -/
def hasSuffixStr (s suf : GoString) : Bool := suf.isSuffixOf s

/-- The Go function `strings.TrimPrefix`. -/
def trimPrefixStr (s pre : GoString) : GoString :=
  if hasPrefixStr s pre then s.drop pre.length else s

/-- The Go function `strings.TrimSuffix`. -/
def trimSuffixStr (s suf : GoString) : GoString :=
  if hasSuffixStr s suf then s.take (s.length - suf.length) else s

/-- The Go function `strings.TrimLeft`: drops the leading characters that occur in `cutset`. -/
def trimLeftStr (s cutset : GoString) : GoString :=
  s.dropWhile (fun c => cutset.contains c)

/-- The Go function `strings.TrimRight`: drops the trailing characters that occur in `cutset`. -/
def trimRightStr (s cutset : GoString) : GoString :=
  (s.reverse.dropWhile (fun c => cutset.contains c)).reverse

/-- Position of the first occurrence of `sub` in `s`, when there is one. -/
def indexOf? : GoString → GoString → Option Nat
  | [], sub => if sub = [] then some 0 else none
  | c :: t, sub =>
    if sub.isPrefixOf (c :: t) then some 0 else (indexOf? t sub).map (· + 1)

/-- The Go function `strings.Index`: `-1` when `sub` does not occur in `s`. -/
def indexStr (s sub : GoString) : Int :=
  match indexOf? s sub with
  | some i => (i : Int)
  | none => -1

/-- The Go function `strings.Contains`. -/
def containsStr (s sub : GoString) : Bool := decide (0 ≤ indexStr s sub)

/-- Splitting at a non-empty separator.  The list returned is the list of
pieces of the text still to read; `skip` counts the characters of a separator
just matched that remain to be passed over. -/
def splitAux (sep : GoString) : GoString → Nat → List GoString
  | [], _ => [[]]
  | _ :: t, skip + 1 => splitAux sep t skip
  | c :: t, 0 =>
    if sep.isPrefixOf (c :: t) then [] :: splitAux sep t (sep.length - 1)
    else
      match splitAux sep t 0 with
      | [] => [[c]]
      | w :: ws => (c :: w) :: ws

/-- The Go function `strings.Split`.  With an empty separator the string is
cut into its characters. -/
def splitStr (s sep : GoString) : List GoString :=
  if sep = [] then s.map (fun c => [c]) else splitAux sep s 0

/-- Replacement of the non-overlapping occurrences of a non-empty `old`, read
from the left. -/
def replaceAux (old new : GoString) : GoString → Nat → GoString
  | [], _ => []
  | _ :: t, skip + 1 => replaceAux old new t skip
  | c :: t, 0 =>
    if old.isPrefixOf (c :: t) then new ++ replaceAux old new t (old.length - 1)
    else c :: replaceAux old new t 0

/-- The Go function `strings.ReplaceAll`.  With an empty `old` the
replacement is inserted before every character and at the end. -/
def replaceAllStr (s old new : GoString) : GoString :=
  if old = [] then new ++ (s.map (fun c => c :: new)).flatten else replaceAux old new s 0

/-! ## Maps, errors, outcomes -/

/-- A Go map as an association list, in iteration order. -/
abbrev GoMap (κ ν : Type) := List (κ × ν)

namespace GoMap

variable {κ ν : Type} [DecidableEq κ]

/-- Reading `m[k]` with the presence flag. -/
def get? : GoMap κ ν → κ → Option ν
  | [], _ => none
  | (k', v) :: t, k => if k' = k then some v else get? t k

/-- The assignment `m[k] = v`. -/
def set : GoMap κ ν → κ → ν → GoMap κ ν
  | [], k, v => [(k, v)]
  | (k', v') :: t, k, v => if k' = k then (k, v) :: t else (k', v') :: set t k v

/-- The keys of the map, in iteration order. -/
def keys (m : GoMap κ ν) : List κ := m.map Prod.fst

/-- The values of the map, in iteration order. -/
def values (m : GoMap κ ν) : List ν := m.map Prod.snd

/-- Whether `k` has an entry. -/
def has (m : GoMap κ ν) (k : κ) : Bool := (get? m k).isSome

end GoMap

/-- The errors the package returns, one constructor for each place that builds one. -/
inductive Err where
  | noLatencyFile
  | readFile
  | latencyToken (w : GoString)
  | noLatencyResult
  | noSmbFile
  | smbLineCount (n : Nat)
  | smbTokenCount (n : Nat)
  | smbToken (w : GoString)
  | undefinedData
  | no4M (line : GoString) (idx : Nat)
  | bwTokens (line : GoString) (n : Nat)
  | bwParse
  | overlapParse
  | undefinedDir
  | labelFile
  | outputFiles
  | noOutputFile (label : GoString)
  | loadFailed
  | bandwidthMissing
  | bandwidthUnit (u : GoString)
  | latencyUnit (u : GoString)
  deriving DecidableEq, Repr

/-- What running a Go function gives: its results, or a run-time panic. -/
inductive Run (α : Type) where
  | ret (a : α)
  | panic
  deriving DecidableEq, Repr

/-! ## A decimal reader, used to evaluate the model on concrete files -/

/-- Value of a string of decimal digits, `acc` being the value read so far. -/
def digitsVal : GoString → Nat → Nat
  | [], acc => acc
  | c :: t, acc => digitsVal t (10 * acc + (c.toNat - 48))

/-- A model of `strconv.ParseFloat` on plain decimal literals: an optional
sign, digits, and at most one point with digits on at least one side.  Every
other string is rejected (the library also reads exponents, hexadecimal
literals, infinities and NaN). -/
def parseDecimal (s : GoString) : Option ℚ :=
  let neg : Bool := match s with
    | '-' :: _ => true
    | _ => false
  let body : GoString := match s with
    | '-' :: t => t
    | '+' :: t => t
    | _ => s
  let ip := body.takeWhile Char.isDigit
  let sgn : ℚ := if neg then -1 else 1
  match body.dropWhile Char.isDigit with
  | [] => if ip = [] then none else some (sgn * (digitsVal ip 0 : ℚ))
  | '.' :: fp =>
    if fp.all Char.isDigit && !(ip.isEmpty && fp.isEmpty) then
      some (sgn * ((digitsVal (ip ++ fp) 0 : ℚ) / (10 : ℚ) ^ fp.length))
    else none
  | _ => none

/-! ## `ComputeOverlap` -/

/-- The name of the sub-benchmark left out of the average. -/
def ibarrier : GoString := "overlap_ibarrier".toList

/-- The key of the MPI-overhead entry of the detail map. -/
def smbKey : GoString := "SMB mpi_overhead".toList

/-- The payload written for a sub-benchmark without data. -/
def dataMissing : List GoString := ["Data missing".toList]

/-- The test `strings.HasPrefix(line, "Overlap: ")` of `ComputeOverlap`. -/
def isOverlapLine (line : GoString) : Bool := hasPrefixStr line "Overlap: ".toList

/-- The text `ComputeOverlap` hands to `strconv.ParseFloat` for a line that
starts with `Overlap: `: the line without that start, then without trailing
line feeds, then without a final ` %`. -/
def percentText (line : GoString) : GoString :=
  let line := trimPrefixStr line "Overlap: ".toList
  let line := trimRightStr line "\n".toList
  trimSuffixStr line " %".toList

/-- The inner loop of `ComputeOverlap` over the lines of one sub-benchmark:
`none` when no line starts with `Overlap: `, otherwise the result of
`parseFloat` on the first such line, stripped. -/
def scanOverlapLines (parseFloat : GoString → Option ℚ) : List GoString → Option (Option ℚ)
  | [] => none
  | line :: rest =>
    if isOverlapLine line then some (parseFloat (percentText line))
    else scanOverlapLines parseFloat rest

/-- The local variables the first loop of `ComputeOverlap` updates. -/
structure OverlapAcc where
  skipped : Int
  overlapDetails : GoMap GoString ℚ
  finalOverlap : ℚ
  deriving DecidableEq

/-- The first loop of `ComputeOverlap`, over the entries of `overlapData`. -/
def overlapLoop (parseFloat : GoString → Option ℚ) :
    List (GoString × List GoString) → OverlapAcc → Except Err OverlapAcc
  | [], acc => .ok acc
  | (benchName, output) :: rest, acc =>
    if benchName = ibarrier then
      overlapLoop parseFloat rest { acc with skipped := acc.skipped + 1 }
    else
      let details := GoMap.set acc.overlapDetails benchName 0
      match scanOverlapLines parseFloat output with
      | none => overlapLoop parseFloat rest { acc with overlapDetails := details }
      | some none => .error Err.overlapParse
      | some (some value) =>
        overlapLoop parseFloat rest
          { acc with overlapDetails := GoMap.set details benchName value
                     finalOverlap := acc.finalOverlap + value }

/-- The variables the second loop of `ComputeOverlap` updates; `overlapData`
is the caller's map, `none` when it is `nil`. -/
structure ReconcileAcc where
  overlapDetails : GoMap GoString ℚ
  overlapData : Option (GoMap GoString (List GoString))
  added : Int
  deriving DecidableEq

/-- The second loop of `ComputeOverlap`, over the expected sub-benchmark
names.  Writing into a `nil` map panics. -/
def reconcileLoop : List GoString → ReconcileAcc → Run ReconcileAcc
  | [], acc => .ret acc
  | subBench :: rest, acc =>
    if GoMap.has acc.overlapDetails subBench then reconcileLoop rest acc
    else
      match acc.overlapData with
      | none => .panic
      | some data =>
        reconcileLoop rest
          { overlapDetails := GoMap.set acc.overlapDetails subBench 0
            overlapData := some (GoMap.set data subBench dataMissing)
            added := acc.added + 1 }

/-- What `ComputeOverlap` returns, together with the final content of the
map it was given (the map is shared with the caller). -/
structure OverlapResult where
  score : ℚ
  details : Option (GoMap GoString ℚ)
  err : Option Err
  overlapData : Option (GoMap GoString (List GoString))
  deriving DecidableEq

/-- The function `ComputeOverlap`.  `overlapBenchs` is the list returned by
`overlap.GetListSubBenchmarks()`. -/
def ComputeOverlap (parseFloat : GoString → Option ℚ) (overlapBenchs : List GoString)
    (smbMPIOverhead : ℚ) (overlapData : Option (GoMap GoString (List GoString))) :
    Run OverlapResult :=
  let entries := overlapData.getD []
  let numBenchs : Int := entries.length
  match overlapLoop parseFloat entries { skipped := 0, overlapDetails := [], finalOverlap := 0 } with
  | .error e => .ret { score := 0, details := none, err := some e, overlapData := overlapData }
  | .ok acc =>
    let smbMPIOverhead := if smbMPIOverhead < 0 then 0 else smbMPIOverhead
    let finalOverlap := acc.finalOverlap + smbMPIOverhead
    let overlapDetails := GoMap.set acc.overlapDetails smbKey smbMPIOverhead
    match reconcileLoop overlapBenchs
        { overlapDetails := overlapDetails, overlapData := overlapData, added := 0 } with
    | .panic => .panic
    | .ret rec =>
      let numBenchs := numBenchs - acc.skipped
      let numBenchs := numBenchs + rec.added
      .ret { score := finalOverlap / ((numBenchs + 1 : Int) : ℚ)
             details := some rec.overlapDetails
             err := none
             overlapData := rec.overlapData }

/-! ## The result store and the collaborators -/

/-- The Go type `Data`. -/
structure Data where
  Text : List GoString
  Unit : GoString
  deriving DecidableEq

/-- The Go type `Results`.  Its maps are created before they are written, so
a `nil` map and an empty one are the same here. -/
structure Results where
  resultsDir : GoString
  osuResultFiles : GoMap GoString GoString
  smbResultFiles : GoMap GoString GoString
  overlapResultFiles : GoMap GoString GoString
  OsuFilesMap : GoMap GoString GoString
  OsuData : GoMap GoString Data
  overlapFilesMap : GoMap GoString GoString
  overlapData : GoMap GoString Data
  deriving DecidableEq

/-- The value of the external type `score.Metrics` as `ComputeScore` fills it. -/
structure Metrics where
  Bandwidth : ℚ
  BandwidthUnit : GoString
  Latency : ℚ
  LatencyUnit : GoString
  MpiOverlap : ℚ
  OverlapData : Option (GoMap GoString (List GoString))
  OverlapScore : ℚ
  OverlapDetails : Option (GoMap GoString ℚ)
  Score : ℚ
  deriving DecidableEq

/-- What the package takes from outside: the file system, the standard
library and the packages `label`, `util`, `overlap` and `score`. -/
structure World where
  /-- The library function `filepath.Join`, on two arguments. -/
  join : GoString → GoString → GoString
  /-- The library function `ioutil.ReadFile`; `none` is a returned error. -/
  readFile : GoString → Option GoString
  /-- The library function `strconv.ParseFloat`; `none` is a returned error. -/
  parseFloat : GoString → Option ℚ
  /-- The function `util.CleanOSUline`. -/
  cleanOSUline : GoString → GoString
  /-- The list `overlap.GetListSubBenchmarks()`. -/
  overlapBenchs : List GoString
  /-- The function `label.GetFilePath`. -/
  labelFilePath : GoString → GoString
  /-- The map `label.FromFile` fills from a label file; `none` is a returned error. -/
  labelFromFile : GoString → Option (GoMap GoString GoString)
  /-- The function `util.GetOutputFiles`; `none` is a returned error. -/
  getOutputFiles : GoString → Option (GoMap GoString GoString)
  /-- The method `Compute` of `score.Metrics`. -/
  compute : Metrics → ℚ

/-- A loop body's outcome: go on with a new state, or return from the function. -/
inductive Step (σ α : Type) where
  | next (s : σ)
  | done (a : α)
  deriving DecidableEq

/-! ## `GetOverlapData` and `LoadResultsWithPrefix` -/

/-- The loop of `GetOverlapData` over `r.overlapResultFiles`; the first
component is the returned map (`none` is `nil`). -/
def overlapDataLoop (w : World) :
    List (GoString × GoString) → GoMap GoString (List GoString) → Results →
    Option (GoMap GoString (List GoString)) × Results
  | [], res, r => (some res, r)
  | (benchName, f) :: rest, res, r =>
    match w.readFile (w.join r.resultsDir f) with
    | none => (none, r)
    | some content =>
      let lines := splitStr content "\n".toList
      if lines.length < 2 then (none, r)
      else
        let res := GoMap.set res benchName lines
        let r := { r with overlapData := GoMap.set r.overlapData benchName { Text := lines, Unit := [] } }
        let r := { r with overlapFilesMap := GoMap.set r.overlapFilesMap benchName f }
        overlapDataLoop w rest res r

/-- The method `GetOverlapData`, with the receiver after the call. -/
def GetOverlapData (w : World) (r : Results) :
    Option (GoMap GoString (List GoString)) × Results :=
  overlapDataLoop w r.overlapResultFiles [] r

/-- The two loops of `LoadResultsWithPrefix` that read a unit from the
comment lines starting with `marker`; `unit` is the unit stored so far. -/
def unitOfComments (marker : GoString) : List GoString → GoString → GoString
  | [], unit => unit
  | line :: rest, unit =>
    if hasPrefixStr line marker then
      let u := trimPrefixStr line marker
      let u := trimLeftStr u "\n".toList
      let u := trimSuffixStr u ")".toList
      unitOfComments marker rest u
    else unitOfComments marker rest unit

/-- The record `LoadResultsWithPrefix` stores in `r.OsuData` for a new key. -/
def cachedRecord (subBenchmark : GoString) (lines : List GoString) : Data :=
  let d : Data := { Text := lines, Unit := [] }
  let d : Data :=
    if subBenchmark = "latency".toList then
      { d with Unit := unitOfComments "# Size Latency (".toList lines d.Unit }
    else d
  if subBenchmark = "bw".toList then
    { d with Unit := unitOfComments "# Size Bandwidth (".toList lines d.Unit }
  else d

/-- The loop of `LoadResultsWithPrefix` over `r.osuResultFiles`; the first
component is the returned map (`none` is `nil`). -/
def loadLoop (w : World) (testPrefix : GoString) :
    List (GoString × GoString) → GoMap GoString Data → Results →
    Option (GoMap GoString Data) × Results
  | [], res, r => (some res, r)
  | (benchName, f) :: rest, res, r =>
    if hasPrefixStr benchName testPrefix then
      if testPrefix = "osu".toList ∧ hasPrefixStr benchName "osu_noncontig_mem".toList then
        loadLoop w testPrefix rest res r
      else
        let subBenchmark := trimPrefixStr benchName (testPrefix ++ "_".toList)
        let f := w.join r.resultsDir f
        match w.readFile f with
        | none => (none, r)
        | some content =>
          let lines := splitStr content "\n".toList
          let benchKey := testPrefix ++ "_".toList ++ subBenchmark
          let res := GoMap.set res benchKey { Text := lines, Unit := [] }
          let r :=
            if (GoMap.get? r.OsuData benchKey).isNone then
              { r with OsuData := GoMap.set r.OsuData benchKey (cachedRecord subBenchmark lines) }
            else r
          let r := { r with OsuFilesMap := GoMap.set r.OsuFilesMap benchKey f }
          loadLoop w testPrefix rest res r
    else loadLoop w testPrefix rest res r

/-- The method `LoadResultsWithPrefix`, with the receiver after the call. -/
def LoadResultsWithPrefix (w : World) (r : Results) (testPrefix : GoString) :
    Option (GoMap GoString Data) × Results :=
  loadLoop w testPrefix r.osuResultFiles [] r

/-! ## `GetLatency` -/

/-- The words `GetLatency` does not skip: those that are neither empty nor
a single space. -/
def isToken (w : GoString) : Bool := !(decide (w = []) || decide (w = " ".toList))

/-- The loop of `GetLatency` over the words of a data line; the state is `size`. -/
def latencyWords (parseFloat : GoString → Option ℚ) (unit : GoString) :
    List GoString → ℚ → Step ℚ (ℚ × GoString × Option Err)
  | [], size => .next size
  | w :: ws, size =>
    if !isToken w then latencyWords parseFloat unit ws size
    else if size = -1 then
      match parseFloat w with
      | none => .done (0, unit, some (Err.latencyToken w))
      | some s => latencyWords parseFloat unit ws s
    else
      match parseFloat w with
      | none => .done (0, unit, some (Err.latencyToken w))
      | some lat => .done (lat, unit, none)

/-- The text the unit of `GetLatency` is searched after. -/
def latencyMark : GoString := "Latency (".toList

/-- The unit `GetLatency` takes from a comment line that contains
`Latency (`: `tokens[1][:idx]`, a panic when the index or the slice bound is
out of range. -/
def commentUnit (line : GoString) : Run GoString :=
  match (splitStr line latencyMark)[1]? with
  | none => .panic
  | some tok =>
    let idx := indexStr tok ")".toList
    if idx < 0 then .panic else .ret (tok.take idx.toNat)

/-- The test of `GetLatency` for an empty line or a comment line. -/
def isCommentLine (line : GoString) : Bool :=
  decide (line = []) || hasPrefixStr line "#".toList

/-- The loop of `GetLatency` over the lines after the first one; the state
is `unit` and `size`. -/
def latencyLines (parseFloat : GoString → Option ℚ) :
    List GoString → GoString → ℚ → Run (ℚ × GoString × Option Err)
  | [], unit, _ => .ret (0, unit, some Err.noLatencyResult)
  | line :: rest, unit, size =>
    if isCommentLine line then
      if containsStr line latencyMark then
        match commentUnit line with
        | .panic => .panic
        | .ret unit => latencyLines parseFloat rest unit size
      else latencyLines parseFloat rest unit size
    else
      match latencyWords parseFloat unit (splitStr line " ".toList) size with
      | .done res => .ret res
      | .next size => latencyLines parseFloat rest unit size

/-- The method `GetLatency`. -/
def GetLatency (w : World) (r : Results) : Run (ℚ × GoString × Option Err) :=
  let f := (GoMap.get? r.osuResultFiles "osu_latency".toList).getD []
  if f = [] then .ret (0, [], some Err.noLatencyFile)
  else
    match w.readFile (w.join r.resultsDir f) with
    | none => .ret (0, "Unknown".toList, some Err.readFile)
    | some content =>
      latencyLines w.parseFloat (splitStr content "\n".toList).tail "Unknown".toList (-1)

/-! ## `GetSMBOverlap` -/

/-- Replacing never lengthens a string when `new` is not longer than `old`. -/
theorem replaceAux_length_le (old new : GoString) (h : new.length ≤ old.length) :
    ∀ (s : GoString) (k : Nat), k ≤ s.length →
      (replaceAux old new s k).length + k ≤ s.length := by
  intro s
  induction s with
  | nil => intro k hk; simp at hk; subst hk; simp [replaceAux]
  | cons c t ih =>
    intro k hk
    cases k with
    | succ k =>
      simp only [replaceAux]
      have := ih k (by simpa using hk)
      simp only [List.length_cons]; omega
    | zero =>
      simp only [replaceAux]
      split
      · rename_i hp
        have hl := (List.isPrefixOf_iff_prefix.mp hp).length_le
        simp only [List.length_cons] at hl
        have := ih (old.length - 1) (by omega)
        simp only [List.length_append, List.length_cons]; omega
      · have := ih 0 (by omega)
        simp only [List.length_cons]; omega

/-- An occurrence that does not start at the head occurs in the tail. -/
theorem containsStr_tail {c : Char} {t sub : GoString} (h : containsStr (c :: t) sub = true)
    (hp : ¬ sub.isPrefixOf (c :: t) = true) : containsStr t sub = true := by
  simp only [containsStr, indexStr, indexOf?, hp, decide_eq_true_eq] at h ⊢
  cases hi : indexOf? t sub with
  | none => simp [hi] at h
  | some i => simp

/-- Replacing shortens a string in which `old` occurs when `new` is shorter. -/
theorem replaceAux_length_lt (old new : GoString) (h : new.length < old.length) :
    ∀ (s : GoString), containsStr s old = true → (replaceAux old new s 0).length < s.length := by
  intro s
  induction s with
  | nil =>
    intro hc
    have : old ≠ [] := by intro h0; simp [h0] at h
    simp [containsStr, indexStr, indexOf?, this] at hc
  | cons c t ih =>
    intro hc
    simp only [replaceAux]
    split
    · rename_i hp
      have hl := (List.isPrefixOf_iff_prefix.mp hp).length_le
      simp only [List.length_cons] at hl
      have := replaceAux_length_le old new (le_of_lt h) t (old.length - 1) (by omega)
      simp only [List.length_append, List.length_cons]; omega
    · rename_i hp
      have := ih (containsStr_tail hc hp)
      simp only [List.length_cons]; omega

set_option linter.unusedVariables false in
/-- The clean-up loop of `GetSMBOverlap`: while the line contains two
consecutive spaces, every pair of spaces is replaced by one space.  Each
round shortens the line, so the loop ends. -/
def collapseSpaces (targetLine : GoString) : GoString :=
  if h : containsStr targetLine "  ".toList = true then
    collapseSpaces (replaceAllStr targetLine "  ".toList " ".toList)
  else targetLine
termination_by targetLine.length
decreasing_by
  simp only [replaceAllStr]
  exact replaceAux_length_lt _ _ (by decide) targetLine h

/-- The method `GetSMBOverlap`. -/
def GetSMBOverlap (w : World) (r : Results) : Run (ℚ × Option Err) :=
  let f := (GoMap.get? r.smbResultFiles "smb_mpi_overhead".toList).getD []
  if f = [] then .ret (0, some Err.noSmbFile)
  else
    match w.readFile (w.join r.resultsDir f) with
    | none => .ret (0, some Err.readFile)
    | some content =>
      let lines := splitStr content "\n".toList
      if lines.length ≠ 4 then .ret (0, some (Err.smbLineCount lines.length))
      else
        match lines[2]? with
        | none => .panic
        | some targetLine =>
          let words := splitStr (collapseSpaces targetLine) " ".toList
          if words.length ≠ 8 then .ret (0, some (Err.smbTokenCount words.length))
          else
            match words[6]? with
            | none => .panic
            | some word =>
              match w.parseFloat word with
              | none => .ret (0, some (Err.smbToken word))
              | some value => .ret (value, none)

/-! ## `GetBandwidth` -/

/-- The loop of `GetBandwidth` that walks back from the end of the text over
the empty lines.  The argument is `idx + 1`; `none` is the panic of reading
`d.Text[-1]`. -/
def lastNonEmpty (text : List GoString) : Nat → Option Nat
  | 0 => none
  | i + 1 =>
    match text[i]? with
    | none => none
    | some line => if line = [] then lastNonEmpty text i else some i

/-- The loop of `GetBandwidth` over `i = 0, …, 5` (the list of the values of
`i` still to visit); the state is `bw`. -/
def bandwidthLoop (clean : GoString → GoString) (parseFloat : GoString → Option ℚ)
    (text : List GoString) (idx : Nat) (unit : GoString) :
    List Nat → ℚ → Run (Step ℚ (ℚ × GoString × Option Err))
  | [], bw => .ret (.next bw)
  | i :: is, bw =>
    if idx < i then .panic
    else
      match text[idx - i]? with
      | none => .panic
      | some line =>
        let line := clean line
        let tokens := splitStr line " ".toList
        if tokens.length ≠ 2 then
          .ret (.done (-1, unit, some (Err.bwTokens line tokens.length)))
        else
          match tokens[1]? with
          | none => .panic
          | some tok =>
            let tok := trimLeftStr tok " ".toList
            let tok := trimLeftStr tok "\t".toList
            match parseFloat tok with
            | none => .ret (.done (-1, unit, some Err.bwParse))
            | some val =>
              bandwidthLoop clean parseFloat text idx unit is (if bw < val then val else bw)

/-- The function `GetBandwidth`; `clean` is `util.CleanOSUline`, `d = none`
the `nil` pointer. -/
def GetBandwidth (clean : GoString → GoString) (parseFloat : GoString → Option ℚ)
    (d : Option Data) : Run (ℚ × GoString × Option Err) :=
  match d with
  | none => .ret (0, [], some Err.undefinedData)
  | some d =>
    match d.Text[2]? with
    | none => .panic
    | some header =>
      let header := clean header
      let unit := trimPrefixStr header "# Size Bandwidth (".toList
      let unit := trimSuffixStr unit ")".toList
      match lastNonEmpty d.Text d.Text.length with
      | none => .panic
      | some idx =>
        match d.Text[idx]? with
        | none => .panic
        | some last =>
          if !hasPrefixStr last "4194304".toList then
            .ret (-1, unit, some (Err.no4M last idx))
          else
            match bandwidthLoop clean parseFloat d.Text idx unit [0, 1, 2, 3, 4, 5] 0 with
            | .panic => .panic
            | .ret (.done res) => .ret res
            | .ret (.next bw) =>
              if unit = "MB/s".toList then .ret (bw / 125, "Gb/s".toList, none)
              else .ret (bw, unit, none)

/-! ## `Get` and `ComputeScore` -/

/-- The loop of `Get` over the label map (`hash`, `expLabel`). -/
def getLoop (outputFiles : GoMap GoString GoString) :
    List (GoString × GoString) → Results → Option Results × Option Err
  | [], r => (some r, none)
  | (hash, expLabel) :: rest, r =>
    let filePath := (GoMap.get? outputFiles hash).getD []
    if filePath = [] then (none, some (Err.noOutputFile expLabel))
    else
      let r :=
        if hasPrefixStr expLabel "osu".toList then
          { r with osuResultFiles := GoMap.set r.osuResultFiles expLabel filePath }
        else r
      let r :=
        if hasPrefixStr expLabel "smb".toList then
          { r with smbResultFiles := GoMap.set r.smbResultFiles expLabel filePath }
        else r
      let r :=
        if hasPrefixStr expLabel "overlap".toList then
          let expLabel := replaceAllStr expLabel "overlap_overlap_".toList "overlap_".toList
          { r with overlapResultFiles := GoMap.set r.overlapResultFiles expLabel filePath }
        else r
      getLoop outputFiles rest r

/-- The function `Get`. -/
def Get (w : World) (dir : GoString) : Option Results × Option Err :=
  let r : Results :=
    { resultsDir := dir, osuResultFiles := [], smbResultFiles := [], overlapResultFiles := [],
      OsuFilesMap := [], OsuData := [], overlapFilesMap := [], overlapData := [] }
  if r.resultsDir = [] then (none, some Err.undefinedDir)
  else
    match w.labelFromFile (w.labelFilePath r.resultsDir) with
    | none => (none, some Err.labelFile)
    | some labels =>
      match w.getOutputFiles dir with
      | none => (none, some Err.outputFiles)
      | some outputFiles => getLoop outputFiles labels r

/-- The function `ComputeScore`. -/
def ComputeScore (w : World) (dataDir : GoString) : Run (Option Metrics × Option Err) :=
  match Get w dataDir with
  | (_, some err) => .ret (none, some err)
  | (none, none) => .ret (none, some Err.loadFailed)
  | (some data, none) =>
    match LoadResultsWithPrefix w data "osu".toList with
    | (osuData, data) =>
      match GetSMBOverlap w data with
      | .panic => .panic
      | .ret (_, some err) => .ret (none, some err)
      | .ret (mpiOverhead, none) =>
        match (osuData.getD []).get? "bw".toList with
        | none => .ret (none, some Err.bandwidthMissing)
        | some bwData =>
          match GetBandwidth w.cleanOSUline w.parseFloat (some bwData) with
          | .panic => .panic
          | .ret (_, _, some err) => .ret (none, some err)
          | .ret (bandwidth, bandwidthUnit, none) =>
            match GetLatency w data with
            | .panic => .panic
            | .ret (_, _, some err) => .ret (none, some err)
            | .ret (latency, latencyUnit, none) =>
              match GetOverlapData w data with
              | (overlapData, _) =>
                match ComputeOverlap w.parseFloat w.overlapBenchs mpiOverhead overlapData with
                | .panic => .panic
                | .ret res =>
                  match res.err with
                  | some err => .ret (none, some err)
                  | none =>
                    if bandwidthUnit ≠ "Gb/s".toList then
                      .ret (none, some (Err.bandwidthUnit bandwidthUnit))
                    else if latencyUnit ≠ "us".toList then
                      .ret (none, some (Err.latencyUnit latencyUnit))
                    else
                      let metrics : Metrics :=
                        { Bandwidth := bandwidth, BandwidthUnit := bandwidthUnit,
                          Latency := latency, LatencyUnit := latencyUnit,
                          MpiOverlap := mpiOverhead, OverlapData := res.overlapData,
                          OverlapScore := res.score, OverlapDetails := res.details, Score := 0 }
                      .ret (some { metrics with Score := w.compute metrics }, none)

/-! ## The statements of the specification, for comparison -/

/-- The specification's percentage of one sub-benchmark: the number on its
first line that starts with `Overlap: `, zero when it has no such line. -/
def firstPercentage (parseFloat : GoString → Option ℚ) (lines : List GoString) : ℚ :=
  match lines.find? isOverlapLine with
  | none => 0
  | some l => (parseFloat (percentText l)).getD 0

/-- The percentages of a mapping parse: in every sub-benchmark but
`overlap_ibarrier`, the first line that starts with `Overlap: ` holds a number. -/
def percentagesParse (parseFloat : GoString → Option ℚ)
    (input : GoMap GoString (List GoString)) : Bool :=
  input.all fun e =>
    decide (e.1 = ibarrier) ||
      match e.2.find? isOverlapLine with
      | none => true
      | some l => (parseFloat (percentText l)).isSome

/-- The specification's `sum`: the percentages of the sub-benchmarks other
than `overlap_ibarrier`, plus the SMB overhead when it is positive. -/
def specSum (parseFloat : GoString → Option ℚ) (smb : ℚ)
    (input : GoMap GoString (List GoString)) : ℚ :=
  ((input.filter (fun e => decide (e.1 ≠ ibarrier))).map
    (fun e => firstPercentage parseFloat e.2)).sum + max 0 smb

/-- The specification's `X`: the number of excluded sub-benchmarks of the input. -/
def excludedCount (input : GoMap GoString (List GoString)) : Nat :=
  (input.filter (fun e => decide (e.1 = ibarrier))).length

/-- The specification's `S`: the number of (distinct) expected names that
have no entry in the input mapping. -/
def absentCount (expected : List GoString) (input : GoMap GoString (List GoString)) : Nat :=
  (expected.dedup.filter (fun k => !GoMap.has input k)).length

/-- The specification's score `sum / (N − X + S + 1)`. -/
def specScore (parseFloat : GoString → Option ℚ) (expected : List GoString) (smb : ℚ)
    (input : GoMap GoString (List GoString)) : ℚ :=
  specSum parseFloat smb input /
    (((input.length : Int) - excludedCount input + absentCount expected input + 1 : Int) : ℚ)

/-! ## Auxiliary notions and example data -/

/-- Whether the detail map holds an entry for `k` before the second loop:
`k` is the MPI-overhead key or an input name other than `overlap_ibarrier`. -/
def detailed (input : GoMap GoString (List GoString)) (k : GoString) : Bool :=
  decide (k = smbKey) || (decide (k ∈ GoMap.keys input) && decide (k ≠ ibarrier))

/-- The lines stored under `overlap_ibarrier` replaced by `lines`. -/
def withIbarrierLines (input : GoMap GoString (List GoString)) (lines : List GoString) :
    GoMap GoString (List GoString) :=
  input.map fun e => if e.1 = ibarrier then (e.1, lines) else e

/-- The three values `ComputeOverlap` returns. -/
structure Returned where
  score : ℚ
  details : Option (GoMap GoString ℚ)
  err : Option Err
  deriving DecidableEq

/-- The score and the error of a run of `ComputeOverlap`, `none` for a panic. -/
def scoreAndError : Run OverlapResult → Option (ℚ × Option Err)
  | .panic => none
  | .ret r => some (r.score, r.err)

/-- What a caller sees of a run of `ComputeOverlap` apart from the map it
passed: a panic (`none`), or the score, the detail map and the error. -/
def observable : Run OverlapResult → Option Returned
  | .panic => none
  | .ret r => some { score := r.score, details := r.details, err := r.err }

/-- The sub-benchmark `overlap_bcast` of the scenarios. -/
def bcast : GoString := "overlap_bcast".toList

/-- The sub-benchmark `overlap_allreduce` of the scenarios. -/
def allreduce : GoString := "overlap_allreduce".toList

/-- The input mapping of the specification's overlap scenario. -/
def scenarioInput : GoMap GoString (List GoString) :=
  [(bcast, ["Overlap: 45.0 %".toList]), (ibarrier, ["Overlap: 99.0 %".toList])]

/-- Modelled from the spec: `util.CleanOSUline`, of the package `util` of
this repository, is not among the sources read here.  The specification's
Line Cleaner "normalizes a raw output line (collapses repeated whitespace) for
tokenizing"; the model collapses every run of spaces to one space. -/
def CleanOSUline (line : GoString) : GoString := collapseSpaces line

/-- A run directory with an OSU bandwidth file, an OSU latency file and an
SMB file, all readable and well formed. -/
def exampleWorld : World where
  join dir f := dir ++ "/".toList ++ f
  readFile path :=
    if path = "run/bw.out".toList then
      some ("# OSU MPI Bandwidth Test\n# run\n# Size Bandwidth (MB/s)\n131072 1000.0\n262144 1100.0\n524288 1200.0\n1048576 1250.0\n2097152 1240.0\n4194304 1230.0\n").toList
    else if path = "run/lat.out".toList then
      some "# run\n# OSU MPI Latency Test\n# Size Latency (us)\n0 1.23\n".toList
    else if path = "run/smb.out".toList then
      some "line0\nline1\n0  64   128  256  512  1.5   2.75  99\n".toList
    else none
  parseFloat := parseDecimal
  cleanOSUline := CleanOSUline
  overlapBenchs := [bcast, allreduce]
  labelFilePath dir := dir ++ "/labels".toList
  labelFromFile _ :=
    some [("h1".toList, "osu_bw".toList), ("h2".toList, "osu_latency".toList),
      ("h3".toList, "smb_mpi_overhead".toList)]
  getOutputFiles _ :=
    some [("h1".toList, "bw.out".toList), ("h2".toList, "lat.out".toList),
      ("h3".toList, "smb.out".toList)]
  compute _ := 0

/-- A world in which every file read has the given content. -/
def fileWorld (content : GoString) : World where
  join dir f := dir ++ "/".toList ++ f
  readFile _ := some content
  parseFloat := parseDecimal
  cleanOSUline := CleanOSUline
  overlapBenchs := []
  labelFilePath dir := dir
  labelFromFile _ := some []
  getOutputFiles _ := some []
  compute _ := 0

/-- A result store that knows the output file of `osu_latency`. -/
def latencyResults : Results :=
  { resultsDir := "run".toList
    osuResultFiles := [("osu_latency".toList, "lat.out".toList)]
    smbResultFiles := [], overlapResultFiles := [], OsuFilesMap := [], OsuData := []
    overlapFilesMap := [], overlapData := [] }

/-- The unit `GetBandwidth` derives from line index 2 of the text. -/
def derivedUnit (clean : GoString → GoString) (header : GoString) : GoString :=
  trimSuffixStr (trimPrefixStr (clean header) "# Size Bandwidth (".toList) ")".toList

/-- The largest of the values, and zero when all of them are negative. -/
def peakOf (vals : List ℚ) : ℚ := vals.foldr max 0

/-- The unit conversion at the end of `GetBandwidth`. -/
def converted (bw : ℚ) (unit : GoString) : ℚ × GoString × Option Err :=
  if unit = "MB/s".toList then (bw / 125, "Gb/s".toList, none) else (bw, unit, none)

/-- The three lines before the data rows of the example bandwidth records. -/
def bwHead : List GoString :=
  ["# OSU MPI Bandwidth Test".toList, "# run".toList, "# Size Bandwidth (MB/s)".toList]

/-- The six last rows of an OSU bandwidth file. -/
def bwRows : List GoString :=
  ["131072 1000.0".toList, "262144 1100.0".toList, "524288 1200.0".toList,
    "1048576 1250.0".toList, "2097152 1240.0".toList, "4194304 1230.0".toList]

/-- No occurrence of `sep` in `x ++ y` starts inside `x`. -/
def NoStart (sep x y : GoString) : Prop :=
  ∀ i, i < x.length → ¬ sep <+: (x ++ y).drop i

/-! ## Further notions of the specification -/

/-- The specification's collapsing of spaces: every maximal run of two or
more spaces becomes a single space, every other character stays. -/
def squeezeSpaces : GoString → GoString
  | [] => []
  | [c] => [c]
  | c :: d :: t =>
    if c = ' ' ∧ d = ' ' then squeezeSpaces (d :: t) else c :: squeezeSpaces (d :: t)

/-- One round of the clean-up loop of `GetSMBOverlap`. -/
def collapseRound (line : GoString) : GoString :=
  replaceAllStr line "  ".toList " ".toList

/-- A result store that knows the output file of `smb_mpi_overhead`. -/
def smbResults : Results :=
  { resultsDir := "run".toList
    osuResultFiles := []
    smbResultFiles := [("smb_mpi_overhead".toList, "smb.out".toList)]
    overlapResultFiles := [], OsuFilesMap := [], OsuData := []
    overlapFilesMap := [], overlapData := [] }

/-- The value `GetBandwidth` reads on a candidate row: the row, cleaned and
split at single spaces, has exactly two tokens, and the second one, without
leading spaces and tabs, is a number. -/
def rowValue (clean : GoString → GoString) (parseFloat : GoString → Option ℚ)
    (row : GoString) : Option ℚ :=
  match splitStr (clean row) " ".toList with
  | [_, tok] => parseFloat (trimLeftStr (trimLeftStr tok " ".toList) "\t".toList)
  | _ => none

/-- The row `i` lines above line `idx` of the text is a candidate row with value `v`. -/
def RowAbove (clean : GoString → GoString) (parseFloat : GoString → Option ℚ)
    (text : List GoString) (idx i : Nat) (v : ℚ) : Prop :=
  i ≤ idx ∧ ∃ row, text[idx - i]? = some row ∧ rowValue clean parseFloat row = some v

/-- A record of three empty lines. -/
def emptyRecord : Data := { Text := [[], [], []], Unit := [] }

/-- A record of one line. -/
def oneLineRecord : Data := { Text := ["4194304 1.0".toList], Unit := [] }

/-- A record of three candidate rows, the last one for 4194304 bytes. -/
def threeRowRecord : Data :=
  { Text := ["1 1.0".toList, "2 2.0".toList, "4194304 3.0".toList], Unit := [] }

/-- The part of `ComputeScore` that follows the look-up of the bandwidth
record: from the call of `GetBandwidth` to the end. -/
def scoreFromBandwidth (w : World) (data : Results) (mpiOverhead : ℚ) (bwData : Data) :
    Run (Option Metrics × Option Err) :=
  match GetBandwidth w.cleanOSUline w.parseFloat (some bwData) with
  | .panic => .panic
  | .ret (_, _, some err) => .ret (none, some err)
  | .ret (bandwidth, bandwidthUnit, none) =>
    match GetLatency w data with
    | .panic => .panic
    | .ret (_, _, some err) => .ret (none, some err)
    | .ret (latency, latencyUnit, none) =>
      match GetOverlapData w data with
      | (overlapData, _) =>
        match ComputeOverlap w.parseFloat w.overlapBenchs mpiOverhead overlapData with
        | .panic => .panic
        | .ret res =>
          match res.err with
          | some err => .ret (none, some err)
          | none =>
            if bandwidthUnit ≠ "Gb/s".toList then
              .ret (none, some (Err.bandwidthUnit bandwidthUnit))
            else if latencyUnit ≠ "us".toList then
              .ret (none, some (Err.latencyUnit latencyUnit))
            else
              let metrics : Metrics :=
                { Bandwidth := bandwidth, BandwidthUnit := bandwidthUnit,
                  Latency := latency, LatencyUnit := latencyUnit,
                  MpiOverlap := mpiOverhead, OverlapData := res.overlapData,
                  OverlapScore := res.score, OverlapDetails := res.details, Score := 0 }
              .ret (some { metrics with Score := w.compute metrics }, none)

/-- The result store `Get` builds for the example run. -/
def exampleData : Results :=
  { resultsDir := "run".toList
    osuResultFiles :=
      [("osu_bw".toList, "bw.out".toList), ("osu_latency".toList, "lat.out".toList)]
    smbResultFiles := [("smb_mpi_overhead".toList, "smb.out".toList)]
    overlapResultFiles := [], OsuFilesMap := [], OsuData := []
    overlapFilesMap := [], overlapData := [] }

/-- The bandwidth record of the example run. -/
def exampleBw : Data := { Text := bwHead ++ bwRows ++ [[]], Unit := [] }

/-- The result of `ComputeOverlap` at the specification's scenario with an
expected list that names `overlap_ibarrier` and names `overlap_allreduce`
twice. -/
def repeatedResult : OverlapResult :=
  { score := 47 / 4
    details := some [(bcast, 45), (smbKey, 2), (ibarrier, 0), (allreduce, 0)]
    err := none
    overlapData := some
      [(bcast, ["Overlap: 45.0 %".toList]), (ibarrier, dataMissing), (allreduce, dataMissing)] }

/-- Whether `LoadResultsWithPrefix` reads the file of the benchmark
`benchName`: the name starts with the prefix and is not one of the
`osu_noncontig_mem` benchmarks left out for the prefix `osu`. -/
def selected (testPrefix benchName : GoString) : Bool :=
  hasPrefixStr benchName testPrefix &&
    !(decide (testPrefix = "osu".toList) && hasPrefixStr benchName "osu_noncontig_mem".toList)

/-- The sub-benchmark name `LoadResultsWithPrefix` derives from a benchmark name. -/
def subBenchmarkOf (testPrefix benchName : GoString) : GoString :=
  trimPrefixStr benchName (testPrefix ++ "_".toList)

/-- The key under which `LoadResultsWithPrefix` files a benchmark. -/
def benchKeyOf (testPrefix benchName : GoString) : GoString :=
  testPrefix ++ "_".toList ++ subBenchmarkOf testPrefix benchName

/-- The keys `LoadResultsWithPrefix` writes, in the order of the iteration. -/
def loadedKeys (testPrefix : GoString) (files : List (GoString × GoString)) : List GoString :=
  (files.filter (fun e => selected testPrefix e.1)).map (fun e => benchKeyOf testPrefix e.1)

/-- One of the files read by this call has the key `k`, the sub-benchmark
name `sub` and the lines `lines`. -/
def LoadedFrom (w : World) (dir testPrefix : GoString) (files : List (GoString × GoString))
    (k sub : GoString) (lines : List GoString) : Prop :=
  ∃ benchName f content, (benchName, f) ∈ files ∧ selected testPrefix benchName = true ∧
    sub = subBenchmarkOf testPrefix benchName ∧ k = testPrefix ++ "_".toList ++ sub ∧
    w.readFile (w.join dir f) = some content ∧ lines = splitStr content "\n".toList

/-- A latency file. -/
def latencyFile : GoString :=
  "# OSU MPI Latency Test\n# Size Latency (us)\n0 1.23".toList

/-- The lines of the latency file `latencyFile`. -/
def latencyText : List GoString :=
  ["# OSU MPI Latency Test".toList, "# Size Latency (us)".toList, "0 1.23".toList]

/-- The result store `latencyResults` after a first call of
`LoadResultsWithPrefix` that read the lines `latencyText`. -/
def latencyCached : Results :=
  { latencyResults with
    OsuFilesMap := [("osu_latency".toList, "run/lat.out".toList)]
    OsuData := [("osu_latency".toList, { Text := latencyText, Unit := "us".toList })] }

/-- The result of `ComputeOverlap` at the specification's scenario with the
expected list `overlap_bcast`, `overlap_ibarrier`, `overlap_allreduce`. -/
def scenarioListResult : OverlapResult :=
  { score := 47 / 4
    details := some [(bcast, 45), (smbKey, 2), (ibarrier, 0), (allreduce, 0)]
    err := none
    overlapData := some
      [(bcast, ["Overlap: 45.0 %".toList]), (ibarrier, dataMissing), (allreduce, dataMissing)] }

/-- The unit declared by the comment lines that start with `marker`: what the
last such line holds after the marker, without leading line feeds and
without the closing parenthesis; empty when no line starts with `marker`. -/
def declaredUnit (marker : GoString) (lines : List GoString) : GoString :=
  match (lines.filter (fun l => hasPrefixStr l marker)).getLast? with
  | none => []
  | some l => trimSuffixStr (trimLeftStr (trimPrefixStr l marker) "\n".toList) ")".toList

/-- The unit of the record cached for a sub-benchmark: the unit declared by
the `# Size Latency (` comments for `latency`, by the `# Size Bandwidth (`
comments for `bw`, and no unit for any other sub-benchmark. -/
def cachedUnit (sub : GoString) (lines : List GoString) : GoString :=
  if sub = "latency".toList then declaredUnit "# Size Latency (".toList lines
  else if sub = "bw".toList then declaredUnit "# Size Bandwidth (".toList lines
  else []

/-- The latency record of the example run. -/
def exampleLatency : Data :=
  { Text := ["# run".toList, "# OSU MPI Latency Test".toList, "# Size Latency (us)".toList,
      "0 1.23".toList, []]
    Unit := [] }

/-- The result store of the example run after `LoadResultsWithPrefix` for
the prefix `osu`. -/
def exampleCached : Results :=
  { exampleData with
    OsuFilesMap :=
      [("osu_bw".toList, "run/bw.out".toList), ("osu_latency".toList, "run/lat.out".toList)]
    OsuData :=
      [("osu_bw".toList, { exampleBw with Unit := "MB/s".toList }),
        ("osu_latency".toList, { exampleLatency with Unit := "us".toList })] }

/-! ## Lemmas on maps -/

namespace GoMap

variable {κ ν : Type} [DecidableEq κ]

theorem get?_set (m : GoMap κ ν) (k : κ) (v : ν) (k' : κ) :
    get? (set m k v) k' = if k = k' then some v else get? m k' := by
  induction m with
  | nil => simp [set, get?]
  | cons e t ih =>
    obtain ⟨a, b⟩ := e
    by_cases h : a = k
    · subst h
      by_cases h' : a = k' <;> simp [set, get?, h']
    · by_cases h' : a = k'
      · subst h'
        have : ¬ k = a := fun e => h e.symm
        simp [set, get?, h, this]
      · simp [set, get?, h, h', ih]

theorem has_set (m : GoMap κ ν) (k : κ) (v : ν) (k' : κ) :
    has (set m k v) k' = (decide (k = k') || has m k') := by
  unfold has
  rw [get?_set]
  by_cases h : k = k' <;> simp [h]

theorem has_iff_mem_keys (m : GoMap κ ν) (k : κ) : has m k = true ↔ k ∈ keys m := by
  induction m with
  | nil => simp [has, get?, keys]
  | cons e t ih =>
    obtain ⟨a, b⟩ := e
    by_cases h : a = k
    · subst h; simp [has, get?, keys]
    · have h' : ¬ k = a := fun e => h e.symm
      simpa [has, get?, keys, h, h'] using ih

theorem get?_eq_none_iff (m : GoMap κ ν) (k : κ) : get? m k = none ↔ k ∉ keys m := by
  rw [← has_iff_mem_keys]
  unfold has
  cases get? m k <;> simp

end GoMap

/-! ## Lemmas on `ComputeOverlap` -/

theorem scanOverlapLines_eq (pf : GoString → Option ℚ) (lines : List GoString) :
    scanOverlapLines pf lines =
      (lines.find? isOverlapLine).map
        (fun l => pf (percentText l)) := by
  induction lines with
  | nil => rfl
  | cons l t ih =>
    by_cases h : isOverlapLine l = true
    · simp [scanOverlapLines, h, List.find?]
    · simp [scanOverlapLines, h, List.find?, ih]

/-- The first loop succeeds when the percentages parse; it counts the
excluded entries, adds up the percentages of the others and gives exactly
those others an entry of the detail map. -/
theorem overlapLoop_ok (pf : GoString → Option ℚ) :
    ∀ (input : GoMap GoString (List GoString)) (acc : OverlapAcc),
      percentagesParse pf input = true →
      ∃ det, overlapLoop pf input acc = .ok
          { skipped := acc.skipped + excludedCount input
            overlapDetails := det
            finalOverlap := acc.finalOverlap +
              ((input.filter (fun e => decide (e.1 ≠ ibarrier))).map
                (fun e => firstPercentage pf e.2)).sum } ∧
        ∀ k, GoMap.has det k =
          (GoMap.has acc.overlapDetails k ||
            (decide (k ∈ GoMap.keys input) && decide (k ≠ ibarrier))) := by
  intro input
  induction input with
  | nil =>
    intro acc _
    exact ⟨acc.overlapDetails, by simp [overlapLoop, excludedCount], by simp [GoMap.keys]⟩
  | cons e t ih =>
    intro acc hp
    obtain ⟨name, out⟩ := e
    have hpt : percentagesParse pf t = true := by
      simp only [percentagesParse, List.all_cons, Bool.and_eq_true] at hp ⊢
      exact hp.2
    by_cases hn : name = ibarrier
    · obtain ⟨det, h1, h2⟩ := ih { acc with skipped := acc.skipped + 1 } hpt
      refine ⟨det, ?_, ?_⟩
      · simp only [overlapLoop, hn, if_true, h1, excludedCount, List.filter_cons]
        simp
        omega
      · intro k
        rw [h2 k]
        by_cases hk : k = ibarrier
        · simp [GoMap.keys, hn, hk]
        · have hk' : (k == ibarrier) = false := by simpa using hk
          simp [GoMap.keys, hn, hk, hk']
    · have hhead : (match out.find? isOverlapLine with
          | none => true
          | some l => (pf (percentText l)).isSome) = true := by
        simp only [percentagesParse, List.all_cons, Bool.and_eq_true, Bool.or_eq_true,
          decide_eq_true_eq] at hp
        rcases hp.1 with h | h
        · exact absurd h hn
        · exact h
      cases hf : out.find? isOverlapLine with
      | none =>
        obtain ⟨det, h1, h2⟩ :=
          ih { acc with overlapDetails := GoMap.set acc.overlapDetails name 0 } hpt
        refine ⟨det, ?_, ?_⟩
        · simp only [overlapLoop, hn, if_false, scanOverlapLines_eq, hf, Option.map_none', h1,
            excludedCount, List.filter_cons, firstPercentage]
          simp [hn, hf]
        · intro k
          rw [h2 k]
          simp only [GoMap.has_set, GoMap.keys, List.map_cons, List.mem_cons]
          by_cases hk : k = name
          · subst hk; simp [hn]
          · have hk' : ¬ name = k := fun e => hk e.symm
            simp [hk, hk']
      | some l =>
        rw [hf] at hhead
        obtain ⟨v, hv⟩ := Option.isSome_iff_exists.mp hhead
        obtain ⟨det, h1, h2⟩ :=
          ih { acc with
                overlapDetails := GoMap.set (GoMap.set acc.overlapDetails name 0) name v
                finalOverlap := acc.finalOverlap + v } hpt
        refine ⟨det, ?_, ?_⟩
        · simp only [overlapLoop, hn, if_false, scanOverlapLines_eq, hf, Option.map_some', hv, h1,
            excludedCount, List.filter_cons, firstPercentage]
          simp [hn, hf, hv, add_assoc]
        · intro k
          rw [h2 k]
          simp only [GoMap.has_set, GoMap.keys, List.map_cons, List.mem_cons]
          by_cases hk : k = name
          · subst hk; simp [hn]
          · have hk' : ¬ name = k := fun e => hk e.symm
            simp [hk, hk']

/-- Counting the new names: a name without an entry adds one to the count of
the names that remain without one after it got its entry. -/
theorem card_filter_insert_new (det : GoMap GoString ℚ) (a : GoString) (s : Finset GoString)
    (ha : GoMap.has det a = false) :
    ((insert a s).filter (fun k => GoMap.has det k = false)).card =
      (s.filter (fun k => GoMap.has (GoMap.set det a 0) k = false)).card + 1 := by
  have h1 : (insert a s).filter (fun k => GoMap.has det k = false) =
      insert a (s.filter (fun k => GoMap.has (GoMap.set det a 0) k = false)) := by
    ext k
    simp only [Finset.mem_filter, Finset.mem_insert, GoMap.has_set, Bool.or_eq_false_iff,
      decide_eq_false_iff_not]
    constructor
    · rintro ⟨hk | hk, hd⟩
      · exact Or.inl hk
      · by_cases hka : k = a
        · exact Or.inl hka
        · exact Or.inr ⟨hk, fun e => hka e.symm, hd⟩
    · rintro (hk | ⟨hk, _, hd⟩)
      · subst hk; exact ⟨Or.inl rfl, ha⟩
      · exact ⟨Or.inr hk, hd⟩
  rw [h1, Finset.card_insert_of_not_mem]
  simp [GoMap.has_set]

/-- The second loop on a map that is not `nil`: it returns, counts the
distinct expected names that had no detail entry, gives them a zero entry and
the placeholder payload, and leaves every other entry as it was. -/
theorem reconcileLoop_ok :
    ∀ (expected : List GoString) (det : GoMap GoString ℚ)
      (d : GoMap GoString (List GoString)) (added : Int),
      ∃ det' d', reconcileLoop expected
            { overlapDetails := det, overlapData := some d, added := added } =
          .ret { overlapDetails := det', overlapData := some d'
                 added := added +
                   ((expected.toFinset.filter (fun k => GoMap.has det k = false)).card : Int) } ∧
        (∀ k, GoMap.get? det' k =
          if GoMap.has det k = true then GoMap.get? det k
          else if k ∈ expected then some 0 else none) ∧
        (∀ k, GoMap.get? d' k =
          if GoMap.has det k = false ∧ k ∈ expected then some dataMissing
          else GoMap.get? d k) := by
  intro expected
  induction expected with
  | nil =>
    intro det d added
    refine ⟨det, d, by simp [reconcileLoop], ?_, ?_⟩
    · intro k
      by_cases h : GoMap.has det k = true
      · simp [h]
      · have : GoMap.get? det k = none := by
          unfold GoMap.has at h; cases hg : GoMap.get? det k <;> simp_all
        simp [h, this]
    · intro k; simp
  | cons a l ih =>
    intro det d added
    by_cases ha : GoMap.has det a = true
    · obtain ⟨det', d', h1, h2, h3⟩ := ih det d added
      refine ⟨det', d', ?_, ?_, ?_⟩
      · simp only [reconcileLoop, ha, if_true, h1, List.toFinset_cons]
        rw [Finset.filter_insert]
        simp [ha]
      · intro k
        rw [h2 k]
        by_cases hk : GoMap.has det k = true
        · simp [hk]
        · have hka : k ≠ a := by rintro rfl; exact hk ha
          simp [hk, hka]
      · intro k
        rw [h3 k]
        by_cases hk : GoMap.has det k = true
        · simp [hk]
        · have hka : k ≠ a := by rintro rfl; exact hk ha
          simp [hk, hka]
    · have ha' : GoMap.has det a = false := by simpa using ha
      obtain ⟨det', d', h1, h2, h3⟩ :=
        ih (GoMap.set det a 0) (GoMap.set d a dataMissing) (added + 1)
      refine ⟨det', d', ?_, ?_, ?_⟩
      · simp only [reconcileLoop, ha', Bool.false_eq_true, if_false, h1, List.toFinset_cons]
        rw [card_filter_insert_new det a _ ha']
        simp
        omega
      · intro k
        rw [h2 k]
        by_cases hka : k = a
        · subst hka
          simp [GoMap.has_set, GoMap.get?_set, ha']
        · have hak : ¬ a = k := fun e => hka e.symm
          simp [GoMap.has_set, GoMap.get?_set, hka, hak]
      · intro k
        rw [h3 k]
        by_cases hka : k = a
        · subst hka
          simp [GoMap.has_set, GoMap.get?_set, ha']
        · have hak : ¬ a = k := fun e => hka e.symm
          simp [GoMap.has_set, GoMap.get?_set, hka, hak]

/-- What `ComputeOverlap` returns on a map that is not `nil` and whose
percentages parse. -/
theorem ComputeOverlap_ok (pf : GoString → Option ℚ) (expected : List GoString) (smb : ℚ)
    (input : GoMap GoString (List GoString)) (hparse : percentagesParse pf input = true) :
    ∃ det d', ComputeOverlap pf expected smb (some input) =
        .ret { score := specSum pf smb input /
                 (((input.length : Int) - excludedCount input +
                   ((expected.toFinset.filter (fun k => detailed input k = false)).card : Int)
                   + 1 : Int) : ℚ)
               details := some det
               err := none
               overlapData := some d' } ∧
      GoMap.get? det smbKey = some (max 0 smb) ∧
      (∀ k ∈ expected, GoMap.has det k = true) ∧
      (∀ k ∈ expected, detailed input k = false → GoMap.get? det k = some 0) ∧
      (∀ k, GoMap.get? d' k =
        if detailed input k = false ∧ k ∈ expected then some dataMissing
        else GoMap.get? input k) := by
  obtain ⟨det1, h1, h2⟩ :=
    overlapLoop_ok pf input { skipped := 0, overlapDetails := [], finalOverlap := 0 } hparse
  have hsmb : (if smb < 0 then 0 else smb) = max 0 smb := by
    by_cases h : smb < 0
    · simp [h, max_eq_left (le_of_lt h)]
    · simp [h, max_eq_right (not_lt.mp h)]
  have hdet : ∀ k, GoMap.has (GoMap.set det1 smbKey (max 0 smb)) k = detailed input k := by
    intro k
    rw [GoMap.has_set, h2 k]
    by_cases hk : k = smbKey
    · subst hk; simp [detailed]
    · have hk' : ¬ smbKey = k := fun e => hk e.symm
      simp [detailed, hk, hk', GoMap.has, GoMap.get?]
  obtain ⟨det', d', h3, h4, h5⟩ :=
    reconcileLoop_ok expected (GoMap.set det1 smbKey (max 0 smb)) input 0
  refine ⟨det', d', ?_, ?_, ?_, ?_, ?_⟩
  · simp only [ComputeOverlap, Option.getD_some, h1, hsmb, h3, hdet, specSum]
    simp
  · rw [h4 smbKey]
    simp [hdet, detailed, GoMap.get?_set]
  · intro k hk
    unfold GoMap.has
    rw [h4 k]
    by_cases hd : GoMap.has (GoMap.set det1 smbKey (max 0 smb)) k = true
    · rw [if_pos hd]; exact hd
    · simp [hd, hk]
  · intro k hk hd
    rw [h4 k, hdet k]
    simp [hd, hk]
  · intro k
    rw [h5 k, hdet k]

/-! ## Lemmas for the claims on `ComputeOverlap` -/

/-- The first loop fails when a percentage does not parse. -/
theorem overlapLoop_error (pf : GoString → Option ℚ) :
    ∀ (input : GoMap GoString (List GoString)) (acc : OverlapAcc),
      percentagesParse pf input = false →
      overlapLoop pf input acc = .error Err.overlapParse := by
  intro input
  induction input with
  | nil => intro acc h; simp [percentagesParse] at h
  | cons e t ih =>
    intro acc h
    obtain ⟨name, out⟩ := e
    by_cases hn : name = ibarrier
    · have ht : percentagesParse pf t = false := by
        simpa [percentagesParse, hn] using h
      simp only [overlapLoop, hn, if_true]
      exact ih _ ht
    · simp only [overlapLoop, hn, if_false, scanOverlapLines_eq]
      cases hf : out.find? isOverlapLine with
      | none =>
        have ht : percentagesParse pf t = false := by
          simpa [percentagesParse, hn, hf] using h
        simpa using ih _ ht
      | some l =>
        cases hv : pf (percentText l) with
        | none => simp [hv]
        | some v =>
          have ht : percentagesParse pf t = false := by
            simpa [percentagesParse, hn, hf, hv] using h
          simpa [hv] using ih _ ht

/-- The second loop on a `nil` map returns only when every expected name has
a detail entry already, and then changes nothing. -/
theorem reconcileLoop_nil :
    ∀ (expected : List GoString) (det : GoMap GoString ℚ) (added : Int) (res : ReconcileAcc),
      reconcileLoop expected { overlapDetails := det, overlapData := none, added := added } =
          .ret res →
      res = { overlapDetails := det, overlapData := none, added := added } ∧
        ∀ k ∈ expected, GoMap.has det k = true := by
  intro expected
  induction expected with
  | nil =>
    intro det added res h
    simp only [reconcileLoop, Run.ret.injEq] at h
    exact ⟨h.symm, by simp⟩
  | cons a l ih =>
    intro det added res h
    by_cases ha : GoMap.has det a = true
    · simp only [reconcileLoop, ha, if_true] at h
      obtain ⟨h1, h2⟩ := ih det added res h
      exact ⟨h1, by simpa [ha] using h2⟩
    · simp [reconcileLoop, ha] at h

/-- The first loop never reads the lines of `overlap_ibarrier`. -/
theorem overlapLoop_withIbarrierLines (pf : GoString → Option ℚ) (lines : List GoString) :
    ∀ (input : GoMap GoString (List GoString)) (acc : OverlapAcc),
      overlapLoop pf (withIbarrierLines input lines) acc = overlapLoop pf input acc := by
  intro input
  induction input with
  | nil => intro acc; rfl
  | cons e t ih =>
    intro acc
    obtain ⟨name, out⟩ := e
    have hc : withIbarrierLines ((name, out) :: t) lines =
        (if name = ibarrier then (name, lines) else (name, out)) :: withIbarrierLines t lines := rfl
    rw [hc]
    by_cases hn : name = ibarrier
    · rw [if_pos hn]
      simp only [overlapLoop, hn, if_true]
      exact ih _
    · rw [if_neg hn]
      simp only [overlapLoop, hn, if_false, ih]

/-- The detail map and the count of the second loop do not depend on the
content of the map it writes to. -/
theorem reconcileLoop_data_irrelevant :
    ∀ (expected : List GoString) (det : GoMap GoString ℚ)
      (d₁ d₂ : GoMap GoString (List GoString)) (added : Int),
      ∃ det' d₁' d₂' added',
        reconcileLoop expected { overlapDetails := det, overlapData := some d₁, added := added } =
          .ret { overlapDetails := det', overlapData := some d₁', added := added' } ∧
        reconcileLoop expected { overlapDetails := det, overlapData := some d₂, added := added } =
          .ret { overlapDetails := det', overlapData := some d₂', added := added' } := by
  intro expected
  induction expected with
  | nil => intro det d₁ d₂ added; exact ⟨det, d₁, d₂, added, rfl, rfl⟩
  | cons a l ih =>
    intro det d₁ d₂ added
    by_cases ha : GoMap.has det a = true
    · obtain ⟨det', d₁', d₂', added', h1, h2⟩ := ih det d₁ d₂ added
      exact ⟨det', d₁', d₂', added', by simp [reconcileLoop, ha, h1], by simp [reconcileLoop, ha, h2]⟩
    · obtain ⟨det', d₁', d₂', added', h1, h2⟩ :=
        ih (GoMap.set det a 0) (GoMap.set d₁ a dataMissing) (GoMap.set d₂ a dataMissing) (added + 1)
      exact ⟨det', d₁', d₂', added', by simp [reconcileLoop, ha, h1], by simp [reconcileLoop, ha, h2]⟩

theorem withIbarrierLines_filter (lines : List GoString) :
    ∀ (m : GoMap GoString (List GoString)),
      (withIbarrierLines m lines).filter (fun e => decide (e.1 ≠ ibarrier)) =
        m.filter (fun e => decide (e.1 ≠ ibarrier)) := by
  intro m
  induction m with
  | nil => rfl
  | cons e t ih =>
    have hc : withIbarrierLines (e :: t) lines =
        (if e.1 = ibarrier then (e.1, lines) else e) :: withIbarrierLines t lines := rfl
    rw [hc]
    by_cases he : e.1 = ibarrier
    · rw [if_pos he, List.filter_cons, List.filter_cons, ih]
      simp [he]
    · rw [if_neg he, List.filter_cons, List.filter_cons, ih]

theorem withIbarrierLines_keys (lines : List GoString) :
    ∀ (m : GoMap GoString (List GoString)),
      GoMap.keys (withIbarrierLines m lines) = GoMap.keys m := by
  intro m
  induction m with
  | nil => rfl
  | cons e t ih =>
    have hc : withIbarrierLines (e :: t) lines =
        (if e.1 = ibarrier then (e.1, lines) else e) :: withIbarrierLines t lines := rfl
    have ih' : List.map Prod.fst (withIbarrierLines t lines) = List.map Prod.fst t := ih
    rw [hc]
    by_cases he : e.1 = ibarrier <;> simp [GoMap.keys, he, ih']

theorem excludedCount_withIbarrierLines (lines : List GoString) :
    ∀ (m : GoMap GoString (List GoString)),
      excludedCount (withIbarrierLines m lines) = excludedCount m := by
  intro m
  induction m with
  | nil => rfl
  | cons e t ih =>
    have hc : withIbarrierLines (e :: t) lines =
        (if e.1 = ibarrier then (e.1, lines) else e) :: withIbarrierLines t lines := rfl
    have ih' : (List.filter (fun e => decide (e.1 = ibarrier)) (withIbarrierLines t lines)).length =
        (List.filter (fun e => decide (e.1 = ibarrier)) t).length := ih
    unfold excludedCount
    rw [hc]
    by_cases he : e.1 = ibarrier
    · rw [if_pos he, List.filter_cons, List.filter_cons]
      simp [he, ih']
    · rw [if_neg he, List.filter_cons, List.filter_cons]
      simp [he, ih']

theorem percentagesParse_withIbarrierLines (pf : GoString → Option ℚ) (lines : List GoString) :
    ∀ (m : GoMap GoString (List GoString)),
      percentagesParse pf (withIbarrierLines m lines) = percentagesParse pf m := by
  intro m
  induction m with
  | nil => rfl
  | cons e t ih =>
    have hc : withIbarrierLines (e :: t) lines =
        (if e.1 = ibarrier then (e.1, lines) else e) :: withIbarrierLines t lines := rfl
    have ih' : List.all (withIbarrierLines t lines) _ = List.all t _ := ih
    rw [hc]
    by_cases he : e.1 = ibarrier
    · simp only [percentagesParse, List.all_cons, he, if_true, decide_True, Bool.true_or,
        Bool.true_and]
      exact ih'
    · simp only [percentagesParse, List.all_cons, he, if_false]
      rw [ih']

theorem percentagesParse_perm (pf : GoString → Option ℚ)
    {m m' : GoMap GoString (List GoString)} (h : m'.Perm m) :
    percentagesParse pf m' = percentagesParse pf m := by
  rw [Bool.eq_iff_iff]
  simp only [percentagesParse, List.all_eq_true]
  exact ⟨fun H x hx => H x (h.mem_iff.mpr hx), fun H x hx => H x (h.mem_iff.mp hx)⟩

/-- The score and the success of `ComputeOverlap` depend neither on the
order in which the map is visited nor on the lines of `overlap_ibarrier`. -/
theorem ComputeOverlap_order_and_ibarrier (pf : GoString → Option ℚ)
    (expected : List GoString) (smb : ℚ) (lines : List GoString)
    (m m' : GoMap GoString (List GoString)) (h : m'.Perm (withIbarrierLines m lines)) :
    scoreAndError (ComputeOverlap pf expected smb (some m')) =
      scoreAndError (ComputeOverlap pf expected smb (some m)) := by
  have hpp : percentagesParse pf m' = percentagesParse pf m := by
    rw [percentagesParse_perm pf h, percentagesParse_withIbarrierLines]
  have hkeys : (GoMap.keys m').Perm (GoMap.keys m) := by
    have := h.map Prod.fst
    rwa [show List.map Prod.fst (withIbarrierLines m lines) = GoMap.keys m from
      withIbarrierLines_keys lines m] at this
  by_cases hp : percentagesParse pf m = true
  · obtain ⟨det, d, e, -⟩ := ComputeOverlap_ok pf expected smb m hp
    obtain ⟨det', d', e', -⟩ := ComputeOverlap_ok pf expected smb m' (hpp.trans hp)
    have hsum : specSum pf smb m' = specSum pf smb m := by
      unfold specSum
      have := ((h.filter (fun e => decide (e.1 ≠ ibarrier))).map
        (fun e => firstPercentage pf e.2)).sum_eq
      rw [this, withIbarrierLines_filter]
    have hlen : m'.length = m.length := by
      rw [h.length_eq]; simp [withIbarrierLines]
    have hx : excludedCount m' = excludedCount m := by
      rw [← excludedCount_withIbarrierLines lines m]
      exact (h.filter _).length_eq
    have hdet : ∀ k, detailed m' k = detailed m k := by
      intro k
      have : k ∈ GoMap.keys m' ↔ k ∈ GoMap.keys m := hkeys.mem_iff
      simp [detailed, this]
    rw [e, e']
    simp only [scoreAndError, hsum, hlen, hx, hdet]
  · have hp0 : percentagesParse pf m = false := by simpa using hp
    simp [scoreAndError, ComputeOverlap, overlapLoop_error pf m _ hp0,
      overlapLoop_error pf m' _ (hpp.trans hp0)]

/-! ## Claims on `ComputeOverlap` -/

/-- The number of distinct expected names without a detail entry is the
specification's `S` when the expected list names neither the MPI-overhead key
nor an `overlap_ibarrier` of the input. -/
theorem card_undetailed_eq_absentCount (expected : List GoString)
    (input : GoMap GoString (List GoString)) (hsmb : smbKey ∉ expected)
    (hib : ibarrier ∈ GoMap.keys input → ibarrier ∉ expected) :
    (expected.toFinset.filter (fun k => detailed input k = false)).card =
      absentCount expected input := by
  unfold absentCount
  rw [← List.toFinset_card_of_nodup ((List.nodup_dedup expected).filter _),
    List.toFinset_filter]
  congr 1
  ext k
  simp only [Finset.mem_filter, List.mem_toFinset, List.mem_dedup, Bool.not_eq_true']
  constructor
  · rintro ⟨hk, hd⟩
    refine ⟨hk, ?_⟩
    by_contra hh
    have hmem : k ∈ GoMap.keys input := (GoMap.has_iff_mem_keys input k).mp (by simpa using hh)
    have hkb : k ≠ ibarrier := by
      rintro rfl
      exact hib hmem hk
    simp [detailed, hmem, hkb] at hd
  · rintro ⟨hk, hd⟩
    refine ⟨hk, ?_⟩
    have hks : k ≠ smbKey := by
      rintro rfl
      exact hsmb hk
    have hmem : k ∉ GoMap.keys input := by
      intro hm
      rw [(GoMap.has_iff_mem_keys input k).mpr hm] at hd
      exact Bool.noConfusion hd
    simp [detailed, hks, hmem]

/-- When the expected list names an `overlap_ibarrier` that the input has
(and does not name the MPI-overhead key), the number of distinct expected
names without a detail entry is the specification's `S` plus one. -/
theorem card_undetailed_ibarrier (expected : List GoString)
    (input : GoMap GoString (List GoString)) (hsmb : smbKey ∉ expected)
    (hin : ibarrier ∈ GoMap.keys input) (hex : ibarrier ∈ expected) :
    (expected.toFinset.filter (fun k => detailed input k = false)).card =
      absentCount expected input + 1 := by
  have hne : ibarrier ≠ smbKey := by
    intro e
    exact hsmb (e ▸ hex)
  have hA : expected.toFinset.filter (fun k => detailed input k = false) =
      insert ibarrier (expected.toFinset.filter (fun k => GoMap.has input k = false)) := by
    ext k
    simp only [Finset.mem_filter, List.mem_toFinset, Finset.mem_insert]
    constructor
    · rintro ⟨hk, hd⟩
      by_cases hkb : k = ibarrier
      · exact Or.inl hkb
      · right
        refine ⟨hk, ?_⟩
        by_contra hh
        have hmem : k ∈ GoMap.keys input :=
          (GoMap.has_iff_mem_keys input k).mp (by simpa using hh)
        simp [detailed, hmem, hkb] at hd
    · rintro (hk | ⟨hk, hd⟩)
      · subst hk
        exact ⟨hex, by simp [detailed, hne]⟩
      · refine ⟨hk, ?_⟩
        have hks : k ≠ smbKey := by
          rintro rfl
          exact hsmb hk
        have hmem : k ∉ GoMap.keys input := by
          intro hm
          rw [(GoMap.has_iff_mem_keys input k).mpr hm] at hd
          exact Bool.noConfusion hd
        simp [detailed, hks, hmem]
  have hB : ibarrier ∉ expected.toFinset.filter (fun k => GoMap.has input k = false) := by
    simp only [Finset.mem_filter, List.mem_toFinset, not_and]
    intro _
    rw [(GoMap.has_iff_mem_keys input ibarrier).mpr hin]
    exact Bool.noConfusion
  have hC : (expected.toFinset.filter (fun k => GoMap.has input k = false)).card =
      absentCount expected input := by
    unfold absentCount
    rw [← List.toFinset_card_of_nodup ((List.nodup_dedup expected).filter _),
      List.toFinset_filter]
    congr 1
    ext k
    simp only [Finset.mem_filter, List.mem_toFinset, List.mem_dedup, Bool.not_eq_true']
  rw [hA, Finset.card_insert_of_not_mem hB, hC]

/-- The score away from `overlap_ibarrier`.  For every SMB overhead, every
mapping (not `nil`) whose percentages parse and every expected list that
names neither `SMB mpi_overhead` nor an `overlap_ibarrier` that the input
has, `ComputeOverlap` succeeds and returns `sum / (N − X + S + 1)`. -/
theorem ComputeOverlap_score_eq_specScore (pf : GoString → Option ℚ)
    (expected : List GoString) (smb : ℚ) (input : GoMap GoString (List GoString))
    (hparse : percentagesParse pf input = true) (hsmb : smbKey ∉ expected)
    (hib : ibarrier ∈ GoMap.keys input → ibarrier ∉ expected) :
    ∃ r, ComputeOverlap pf expected smb (some input) = .ret r ∧ r.err = none ∧
      r.score = specScore pf expected smb input := by
  obtain ⟨det, d', h, -⟩ := ComputeOverlap_ok pf expected smb input hparse
  refine ⟨_, h, rfl, ?_⟩
  simp only [specScore, card_undetailed_eq_absentCount expected input hsmb hib]

/-- The score when the expected list names an `overlap_ibarrier` that the
input has: `ComputeOverlap` succeeds and divides by one more than the
specification's `N − X + S + 1`. -/
theorem ComputeOverlap_score_ibarrier (pf : GoString → Option ℚ)
    (expected : List GoString) (smb : ℚ) (input : GoMap GoString (List GoString))
    (hparse : percentagesParse pf input = true) (hsmb : smbKey ∉ expected)
    (hin : ibarrier ∈ GoMap.keys input) (hex : ibarrier ∈ expected) :
    ∃ r, ComputeOverlap pf expected smb (some input) = .ret r ∧ r.err = none ∧
      r.score = specSum pf smb input /
        (((input.length : Int) - excludedCount input + absentCount expected input + 1 + 1 :
          Int) : ℚ) := by
  obtain ⟨det, d', h, -⟩ := ComputeOverlap_ok pf expected smb input hparse
  refine ⟨_, h, rfl, ?_⟩
  simp only [card_undetailed_ibarrier expected input hsmb hin hex]
  congr 2
  push_cast
  ring

/-- C1, the code.  The claimed score `sum / (N − X + S + 1)` is what
`ComputeOverlap` returns for every expected list of sub-benchmark names that
does not name an `overlap_ibarrier` of the input; when the expected list
names `overlap_ibarrier` and the input has it, the code counts it as a
synthesized name and divides by `N − X + S + 2`.  At the claim's own witness
(`overlap_bcast` with 45.0 and `overlap_ibarrier` in the input, overhead 2.0,
expected `overlap_bcast`, `overlap_ibarrier`, `overlap_allreduce`) the code
returns `47 / 4` with a zero detail entry for `overlap_ibarrier`, and the
claimed formula gives `(45 + 0 + 2) / 3`. -/
theorem ComputeOverlap_score_counts_ibarrier :
    (∀ (pf : GoString → Option ℚ) (expected : List GoString) (smb : ℚ)
        (input : GoMap GoString (List GoString)),
      percentagesParse pf input = true → smbKey ∉ expected →
      (ibarrier ∈ GoMap.keys input → ibarrier ∉ expected) →
      ∃ r, ComputeOverlap pf expected smb (some input) = .ret r ∧ r.err = none ∧
        r.score = specScore pf expected smb input) ∧
    (∀ (pf : GoString → Option ℚ) (expected : List GoString) (smb : ℚ)
        (input : GoMap GoString (List GoString)),
      percentagesParse pf input = true → smbKey ∉ expected →
      ibarrier ∈ GoMap.keys input → ibarrier ∈ expected →
      ∃ r, ComputeOverlap pf expected smb (some input) = .ret r ∧ r.err = none ∧
        r.score = specSum pf smb input /
          (((input.length : Int) - excludedCount input + absentCount expected input + 1 + 1 :
            Int) : ℚ)) ∧
    percentagesParse parseDecimal scenarioInput = true ∧
    observable (ComputeOverlap parseDecimal [bcast, ibarrier, allreduce] 2 (some scenarioInput))
      = some { score := 47 / 4
               details := some [(bcast, 45), (smbKey, 2), (ibarrier, 0), (allreduce, 0)]
               err := none } ∧
    specScore parseDecimal [bcast, ibarrier, allreduce] 2 scenarioInput = (45 + 0 + 2) / 3 := by
  refine ⟨ComputeOverlap_score_eq_specScore, ComputeOverlap_score_ibarrier, ?_, ?_, ?_⟩
  · decide!
  · decide!
  · decide!

/-- C2.  The lines stored under `overlap_ibarrier` never reach the result:
with any other lines in their place the first loop ends in the same state
(same sum, same detail entries, same error), and `ComputeOverlap` returns the
same score, the same detail map and the same error, or panics alike; the
score and the error are also the same when, in addition, the entries of the
map are visited in another order. -/
theorem ComputeOverlap_ibarrier_lines_irrelevant (pf : GoString → Option ℚ)
    (expected : List GoString) (smb : ℚ) (input : Option (GoMap GoString (List GoString)))
    (lines : List GoString) (acc : OverlapAcc) :
    overlapLoop pf (withIbarrierLines (input.getD []) lines) acc =
        overlapLoop pf (input.getD []) acc ∧
      observable (ComputeOverlap pf expected smb
          (input.map (fun m => withIbarrierLines m lines))) =
        observable (ComputeOverlap pf expected smb input) ∧
      ∀ m', m'.Perm (withIbarrierLines (input.getD []) lines) →
        scoreAndError (ComputeOverlap pf expected smb (input.map (fun _ => m'))) =
          scoreAndError (ComputeOverlap pf expected smb input) := by
  refine ⟨overlapLoop_withIbarrierLines pf lines _ _, ?_, ?_⟩
  · cases input with
    | none => rfl
    | some m =>
      simp only [ComputeOverlap, Option.map_some', Option.getD_some,
        overlapLoop_withIbarrierLines]
      cases hl : overlapLoop pf m { skipped := 0, overlapDetails := [], finalOverlap := 0 } with
      | error e => rfl
      | ok a =>
        obtain ⟨det', d₁', d₂', added', h1, h2⟩ :=
          reconcileLoop_data_irrelevant expected
            (GoMap.set a.overlapDetails smbKey (if smb < 0 then 0 else smb))
            (withIbarrierLines m lines) m 0
        have hlen : (withIbarrierLines m lines).length = m.length := by
          simp [withIbarrierLines]
        simp only [h1, h2, observable, hlen]
  · intro m' hm'
    cases input with
    | none => rfl
    | some m => exact ComputeOverlap_order_and_ibarrier pf expected smb lines m m' hm'

/-- C2 at the specification's scenario: with an unparsable line under
`overlap_ibarrier` and the two entries visited in the other order, the score
and the error are those of the scenario. -/
theorem ComputeOverlap_ibarrier_lines_irrelevant_witness :
    scoreAndError (ComputeOverlap parseDecimal [bcast, allreduce] 2
        (some [(ibarrier, ["Overlap: none".toList]), (bcast, ["Overlap: 45.0 %".toList])])) =
      scoreAndError (ComputeOverlap parseDecimal [bcast, allreduce] 2 (some scenarioInput)) :=
  (ComputeOverlap_ibarrier_lines_irrelevant parseDecimal [bcast, allreduce] 2
    (some scenarioInput) ["Overlap: none".toList]
    { skipped := 0, overlapDetails := [], finalOverlap := 0 }).2.2
    [(ibarrier, ["Overlap: none".toList]), (bcast, ["Overlap: 45.0 %".toList])]
    (List.Perm.swap _ _ _)

/-- The detail map of a successful `ComputeOverlap`, for any expected list:
it has an entry for every name of the expected list and an entry
`SMB mpi_overhead` with value `max 0 smb`, and every expected name other than
`SMB mpi_overhead` that was absent from the input has value zero. -/
theorem ComputeOverlap_detail_map (pf : GoString → Option ℚ) (expected : List GoString)
    (smb : ℚ) (input : Option (GoMap GoString (List GoString))) (r : OverlapResult)
    (h : ComputeOverlap pf expected smb input = .ret r) (herr : r.err = none) :
    ∃ det, r.details = some det ∧
      (∀ k ∈ expected, GoMap.has det k = true) ∧
      GoMap.get? det smbKey = some (max 0 smb) ∧
      ∀ k ∈ expected, k ∉ GoMap.keys (input.getD []) → k ≠ smbKey →
        GoMap.get? det k = some 0 := by
  have hsmb : (if smb < 0 then 0 else smb) = max 0 smb := by
    by_cases h0 : smb < 0
    · simp [h0, max_eq_left (le_of_lt h0)]
    · simp [h0, max_eq_right (not_lt.mp h0)]
  cases input with
  | some m =>
    by_cases hp : percentagesParse pf m = true
    · obtain ⟨det, d', h1, h2, h3, h4, -⟩ := ComputeOverlap_ok pf expected smb m hp
      rw [h1] at h
      cases h
      refine ⟨det, rfl, h3, h2, ?_⟩
      intro k hk hmem hks
      apply h4 k hk
      have hmem' : k ∉ GoMap.keys m := by simpa using hmem
      simp [detailed, hks, hmem']
    · have hp' : percentagesParse pf m = false := by simpa using hp
      simp only [ComputeOverlap, Option.getD_some, overlapLoop_error pf m _ hp'] at h
      cases h
      simp at herr
  | none =>
    simp only [ComputeOverlap, Option.getD_none, overlapLoop, hsmb] at h
    cases hr : reconcileLoop expected
        { overlapDetails := GoMap.set [] smbKey (max 0 smb), overlapData := none, added := 0 } with
    | panic => simp [hr] at h
    | ret res =>
      obtain ⟨h1, h2⟩ := reconcileLoop_nil expected _ _ res hr
      simp only [hr] at h
      cases h
      subst h1
      refine ⟨_, rfl, h2, by simp [GoMap.set, GoMap.get?], ?_⟩
      intro k hk _ hks
      have := h2 k hk
      have hks' : ¬ smbKey = k := fun e => hks e.symm
      simp [GoMap.set, GoMap.has, GoMap.get?, hks'] at this

/-- C3.  Whenever `ComputeOverlap` succeeds, for an expected list of overlap
sub-benchmark names (one that does not name the detail map's own label
`SMB mpi_overhead`), the returned detail map has an entry for every name of
the expected list and an entry `SMB mpi_overhead` with value `max 0 smb`, and
every expected name that was absent from the input has value exactly zero. -/
theorem ComputeOverlap_details (pf : GoString → Option ℚ) (expected : List GoString)
    (smb : ℚ) (input : Option (GoMap GoString (List GoString))) (r : OverlapResult)
    (h : ComputeOverlap pf expected smb input = .ret r) (herr : r.err = none)
    (hexp : smbKey ∉ expected) :
    ∃ det, r.details = some det ∧
      (∀ k ∈ expected, GoMap.has det k = true) ∧
      GoMap.get? det smbKey = some (max 0 smb) ∧
      ∀ k ∈ expected, k ∉ GoMap.keys (input.getD []) → GoMap.get? det k = some 0 := by
  obtain ⟨det, h1, h2, h3, h4⟩ := ComputeOverlap_detail_map pf expected smb input r h herr
  refine ⟨det, h1, h2, h3, ?_⟩
  intro k hk hmem
  apply h4 k hk hmem
  rintro rfl
  exact hexp hk

/-- C3 at the specification's scenario, with the expected list
`overlap_bcast`, `overlap_ibarrier`, `overlap_allreduce`: the detail map has
the entries 45 for `overlap_bcast`, 2 for `SMB mpi_overhead`, and 0 for
`overlap_allreduce`, which the input does not have. -/
theorem ComputeOverlap_details_witness :
    ∃ det, scenarioListResult.details = some det ∧
      (∀ k ∈ [bcast, ibarrier, allreduce], GoMap.has det k = true) ∧
      GoMap.get? det smbKey = some (max 0 2) ∧
      ∀ k ∈ [bcast, ibarrier, allreduce], k ∉ GoMap.keys ((some scenarioInput).getD []) →
        GoMap.get? det k = some 0 :=
  ComputeOverlap_details parseDecimal [bcast, ibarrier, allreduce] 2 (some scenarioInput)
    scenarioListResult (by decide!) (by decide) (by decide)

/-- C4, the code at the specification's scenario: `overlap_ibarrier` is in
the input with the line `Overlap: 99.0 %`, and after the call the map holds
the placeholder `Data missing` under that name. -/
theorem ComputeOverlap_overwrites_ibarrier :
    GoMap.get? scenarioInput ibarrier = some ["Overlap: 99.0 %".toList] ∧
      ComputeOverlap parseDecimal [bcast, ibarrier, allreduce] 2 (some scenarioInput) =
        .ret { score := 47 / 4
               details := some [(bcast, 45), (smbKey, 2), (ibarrier, 0), (allreduce, 0)]
               err := none
               overlapData := some
                 [(bcast, ["Overlap: 45.0 %".toList]), (ibarrier, ["Data missing".toList]),
                   (allreduce, ["Data missing".toList])] } := by
  refine ⟨?_, ?_⟩
  · decide
  · decide!

/-! ## Claim on `ComputeScore` and `LoadResultsWithPrefix` -/

/-- No key that `LoadResultsWithPrefix` writes for the prefix `osu` is `bw`. -/
theorem loadLoop_osu_no_bw (w : World) :
    ∀ (entries : List (GoString × GoString)) (res : GoMap GoString Data) (r : Results),
      GoMap.get? res "bw".toList = none →
      GoMap.get? ((loadLoop w "osu".toList entries res r).1.getD []) "bw".toList = none := by
  intro entries
  induction entries with
  | nil => intro res r h; simpa [loadLoop] using h
  | cons e t ih =>
    intro res r h
    obtain ⟨benchName, f⟩ := e
    simp only [loadLoop]
    split
    · split
      · exact ih res r h
      · split
        · rfl
        · apply ih
          rw [GoMap.get?_set]
          have : ¬ ("osu".toList ++ "_".toList ++
              trimPrefixStr benchName ("osu".toList ++ "_".toList) = "bw".toList) := by
            intro hh
            have := congrArg List.head? hh
            simp at this
          rw [if_neg this]
          exact h
    · exact ih res r h

/-- C5, the code: the map `LoadResultsWithPrefix` returns for the prefix `osu`
never has the key `bw` that `ComputeScore` reads, so `ComputeScore` never
returns a metrics record; in the example run, where `osu_bw` has a readable
file that is stored under the key `osu_bw` and the SMB step succeeds, it
returns the error "bandwidth data is missing". -/
theorem ComputeScore_bandwidth_lookup_fails :
    (∀ (w : World) (r : Results),
      GoMap.get? ((LoadResultsWithPrefix w r "osu".toList).1.getD []) "bw".toList = none) ∧
    (∀ (w : World) (dataDir : GoString) (m : Metrics),
      ComputeScore w dataDir ≠ .ret (some m, none)) ∧
    ((Get exampleWorld "run".toList).1.map
        (fun r => GoMap.keys (LoadResultsWithPrefix exampleWorld r "osu".toList).2.OsuData) =
      some ["osu_bw".toList, "osu_latency".toList]) ∧
    ((Get exampleWorld "run".toList).1.map (fun r => GetSMBOverlap exampleWorld r) =
      some (.ret (11 / 4, none))) ∧
    ComputeScore exampleWorld "run".toList = .ret (none, some Err.bandwidthMissing) := by
  have hgen : ∀ (w : World) (r : Results),
      GoMap.get? ((LoadResultsWithPrefix w r "osu".toList).1.getD []) "bw".toList = none :=
    fun w r => loadLoop_osu_no_bw w _ _ _ rfl
  refine ⟨hgen, ?_, ?_, ?_, ?_⟩
  · intro w dataDir m h
    unfold ComputeScore at h
    have hbw := hgen w
    split at h
    · cases h
    · cases h
    · rename_i data _
      split at h
      rename_i osuData data' hL
      have hb := hbw data
      rw [hL] at hb
      split at h
      · cases h
      · cases h
      · simp only [hb] at h
        cases h
  · decide
  · decide!
  · decide!

/-! ## Lemmas on `strings.Split` and `strings.Index` -/

theorem splitAux_ne_nil (sep : GoString) : ∀ (s : GoString) (k : Nat), splitAux sep s k ≠ [] := by
  intro s
  induction s with
  | nil => intro k; simp [splitAux]
  | cons c t ih =>
    intro k
    cases k with
    | succ k => simpa [splitAux] using ih k
    | zero =>
      simp only [splitAux]
      split
      · simp
      · split <;> simp

/-- Passing over the rest of a matched separator. -/
theorem splitAux_skip (sep : GoString) :
    ∀ (s y : GoString), splitAux sep (s ++ y) s.length = splitAux sep y 0 := by
  intro s
  induction s with
  | nil => intro y; rfl
  | cons c t ih => intro y; simpa [splitAux] using ih y

/-- A separator at the head ends an empty piece. -/
theorem splitAux_sep (sep y : GoString) (h : sep ≠ []) :
    splitAux sep (sep ++ y) 0 = [] :: splitAux sep y 0 := by
  cases sep with
  | nil => exact absurd rfl h
  | cons c t =>
    have hp : (c :: t).isPrefixOf (c :: (t ++ y)) = true := by
      rw [List.isPrefixOf_iff_prefix]; exact List.prefix_append _ _
    rw [List.cons_append, splitAux, if_pos hp]
    simp only [List.length_cons, Nat.add_sub_cancel]
    rw [splitAux_skip]

theorem NoStart.tail {sep : GoString} {c : Char} {t y : GoString}
    (h : NoStart sep (c :: t) y) : NoStart sep t y := by
  intro i hi
  have := h (i + 1) (by simpa using hi)
  simpa using this

theorem NoStart.head {sep : GoString} {c : Char} {t y : GoString}
    (h : NoStart sep (c :: t) y) : sep.isPrefixOf (c :: (t ++ y)) = false := by
  have := h 0 (by simp)
  rw [← Bool.not_eq_true, List.isPrefixOf_iff_prefix]
  simpa using this

/-- A stretch without the start of a separator belongs to the current piece. -/
theorem splitAux_noStart (sep : GoString) :
    ∀ (x y : GoString), NoStart sep x y →
      ∃ w ws, splitAux sep y 0 = w :: ws ∧ splitAux sep (x ++ y) 0 = (x ++ w) :: ws := by
  intro x
  induction x with
  | nil =>
    intro y _
    cases hs : splitAux sep y 0 with
    | nil => exact absurd hs (splitAux_ne_nil sep y 0)
    | cons w ws => exact ⟨w, ws, rfl, by simpa using hs⟩
  | cons c t ih =>
    intro y h
    obtain ⟨w, ws, h1, h2⟩ := ih y h.tail
    refine ⟨w, ws, h1, ?_⟩
    rw [List.cons_append, splitAux, h.head, h2]
    simp

/-- The first occurrence is where the stretch without a start ends. -/
theorem indexOf?_noStart (sep : GoString) :
    ∀ (x y : GoString), NoStart sep x y → sep <+: y → indexOf? (x ++ y) sep = some x.length := by
  intro x
  induction x with
  | nil =>
    intro y _ hy
    cases y with
    | nil =>
      have : sep = [] := by simpa using hy
      simp [indexOf?, this]
    | cons c t =>
      have : sep.isPrefixOf (c :: t) = true := by rwa [List.isPrefixOf_iff_prefix]
      simp [indexOf?, this]
  | cons c t ih =>
    intro y h hy
    rw [List.cons_append, indexOf?, h.head, ih y h.tail hy]
    simp

/-- A character that does not occur in `x` does not start in `x`. -/
theorem noStart_singleton {c : Char} {x y : GoString} (h : c ∉ x) : NoStart [c] x y := by
  intro i hi hp
  obtain ⟨t, ht⟩ := hp
  have h0 := congrArg (fun l => l[0]?) ht
  simp only [List.singleton_append, List.getElem?_cons_zero, List.getElem?_drop,
    Nat.add_zero] at h0
  rw [List.getElem?_append_left hi] at h0
  exact h (List.getElem?_mem h0.symm)

theorem splitAux_singleton_cons (c : Char) (x y : GoString) (h : c ∉ x) :
    splitAux [c] (x ++ c :: y) 0 = x :: splitAux [c] y 0 := by
  obtain ⟨w, ws, h1, h2⟩ := splitAux_noStart [c] x (c :: y) (noStart_singleton h)
  have h3 := splitAux_sep [c] y (by simp)
  simp only [List.singleton_append] at h3
  rw [h3] at h1
  cases h1
  simpa using h2

theorem splitAux_singleton_last (c : Char) (x : GoString) (h : c ∉ x) :
    splitAux [c] x 0 = [x] := by
  obtain ⟨w, ws, h1, h2⟩ := splitAux_noStart [c] x [] (noStart_singleton h)
  simp only [splitAux, List.cons.injEq] at h1
  obtain ⟨rfl, rfl⟩ := h1
  simpa using h2

theorem splitAux_singleton_replicate (c : Char) (y : GoString) :
    ∀ n, splitAux [c] (List.replicate n c ++ y) 0 = List.replicate n [] ++ splitAux [c] y 0 := by
  intro n
  induction n with
  | zero => simp
  | succ n ih =>
    have := splitAux_sep [c] (List.replicate n c ++ y) (by simp)
    simp only [List.singleton_append] at this
    simp only [List.replicate_succ, List.cons_append, this, ih]

/-! ## Lemmas on `GetLatency` -/

/-- `Latency (` does not start in a stretch without `(` that is followed by `Latency (`. -/
theorem noStart_latencyMark_before (x r : GoString) (hx : '(' ∉ x) :
    NoStart latencyMark x (latencyMark ++ r) := by
  intro i hi hp
  obtain ⟨t, ht⟩ := hp
  have h8 := congrArg (fun l => l[8]?) ht
  simp only [List.getElem?_drop] at h8
  have hl : (latencyMark ++ t)[8]? = some '(' := by
    rw [List.getElem?_append_left (by decide)]; decide
  rw [hl] at h8
  by_cases hlt : i + 8 < x.length
  · rw [List.getElem?_append_left hlt] at h8
    exact hx (List.getElem?_mem h8.symm)
  · rw [List.getElem?_append_right (by omega)] at h8
    have hk : i + 8 - x.length < 8 := by omega
    rw [List.getElem?_append_left (by simp [latencyMark]; omega)] at h8
    generalize i + 8 - x.length = k at h8 hk
    interval_cases k <;> simp [latencyMark] at h8

/-- `Latency (` does not start in a unit without `(` that is closed by `)`. -/
theorem noStart_latencyMark_unit (u b : GoString) (hu : '(' ∉ u) :
    NoStart latencyMark (u ++ [')']) b := by
  intro i hi hp
  obtain ⟨t, ht⟩ := hp
  simp only [List.length_append, List.length_singleton] at hi
  by_cases hj : u.length - i ≤ 8
  · have hj' := congrArg (fun l => l[u.length - i]?) ht
    simp only [List.getElem?_drop] at hj'
    have e : i + (u.length - i) = u.length := by omega
    have hr : (u ++ [')'] ++ b)[u.length]? = some ')' := by
      rw [List.getElem?_append_left (by simp), List.getElem?_append_right (le_refl _)]
      simp
    have hl : (latencyMark ++ t)[u.length - i]? = latencyMark[u.length - i]? :=
      List.getElem?_append_left (by simp [latencyMark]; omega)
    rw [e, hr, hl] at hj'
    generalize u.length - i = k at hj' hj
    interval_cases k <;> simp [latencyMark] at hj'
  · have h8 := congrArg (fun l => l[8]?) ht
    simp only [List.getElem?_drop] at h8
    have hl : (latencyMark ++ t)[8]? = some '(' := by
      rw [List.getElem?_append_left (by decide)]; decide
    rw [hl, List.getElem?_append_left (by simp; omega),
      List.getElem?_append_left (by omega)] at h8
    exact hu (List.getElem?_mem h8.symm)

/-- A comment line `#…Latency (<unit>)…` is recognised and yields its unit. -/
theorem commentUnit_wellFormed (a u b : GoString) (ha : '(' ∉ a) (hu1 : '(' ∉ u)
    (hu2 : ')' ∉ u) :
    isCommentLine ('#' :: a ++ latencyMark ++ u ++ ')' :: b) = true ∧
      containsStr ('#' :: a ++ latencyMark ++ u ++ ')' :: b) latencyMark = true ∧
      commentUnit ('#' :: a ++ latencyMark ++ u ++ ')' :: b) = .ret u := by
  have hx : '(' ∉ '#' :: a := by simp [ha]
  have hline : '#' :: a ++ latencyMark ++ u ++ ')' :: b =
      ('#' :: a) ++ (latencyMark ++ ((u ++ [')']) ++ b)) := by simp
  have hns := noStart_latencyMark_before ('#' :: a) ((u ++ [')']) ++ b) hx
  refine ⟨by simp [isCommentLine, hasPrefixStr], ?_, ?_⟩
  · rw [hline]
    unfold containsStr indexStr
    rw [indexOf?_noStart latencyMark _ _ hns (List.prefix_append _ _)]
    simp
    omega
  · obtain ⟨w, ws, h1, h2⟩ := splitAux_noStart latencyMark _ _ hns
    rw [splitAux_sep latencyMark _ (by decide)] at h1
    obtain ⟨w', ws', h3, h4⟩ :=
      splitAux_noStart latencyMark (u ++ [')']) b (noStart_latencyMark_unit u b hu1)
    rw [h4] at h1
    cases h1
    have hidx : indexOf? (u ++ ')' :: w') [')'] = some u.length :=
      indexOf?_noStart [')'] u (')' :: w') (noStart_singleton hu2) (by simp)
    have hsplit : (splitStr ('#' :: a ++ latencyMark ++ u ++ ')' :: b) latencyMark)[1]? =
        some (u ++ ')' :: w') := by
      rw [hline]
      simp only [splitStr, show latencyMark ≠ [] by decide, if_false, h2]
      simp
    simp only [commentUnit, hsplit, indexStr, show ")".toList = [')'] by rfl, hidx]
    simp

/-- Comment lines without `Latency (` leave the state of the loop unchanged. -/
theorem latencyLines_skip (pf : GoString → Option ℚ) :
    ∀ (ls rest : List GoString) (unit : GoString) (size : ℚ),
      (∀ l ∈ ls, isCommentLine l = true ∧ containsStr l latencyMark = false) →
      latencyLines pf (ls ++ rest) unit size = latencyLines pf rest unit size := by
  intro ls
  induction ls with
  | nil => intro rest unit size _; rfl
  | cons l t ih =>
    intro rest unit size h
    have hl := h l (by simp)
    rw [List.cons_append, latencyLines]
    simp only [hl.1, hl.2, if_true, Bool.false_eq_true, if_false]
    exact ih rest unit size (fun l' hl' => h l' (by simp [hl']))

theorem isToken_of_no_space {t : GoString} (h1 : t ≠ []) (h2 : ' ' ∉ t) : isToken t = true := by
  have : t ≠ [' '] := by
    rintro rfl
    exact h2 (by decide)
  simp [isToken, h1, this]

theorem latencyWords_replicate_nil (pf : GoString → Option ℚ) (unit : GoString)
    (ws : List GoString) (size : ℚ) :
    ∀ n, latencyWords pf unit (List.replicate n [] ++ ws) size = latencyWords pf unit ws size := by
  intro n
  induction n with
  | zero => rfl
  | succ n ih =>
    rw [List.replicate_succ, List.cons_append, latencyWords]
    simpa [isToken] using ih

/-- A data line `<size> <value>` with a size other than `-1` gives the value. -/
theorem latencyWords_dataLine (pf : GoString → Option ℚ) (unit sizeTok valTok tail : GoString)
    (n : Nat) (s v : ℚ) (hs1 : sizeTok ≠ []) (hs2 : ' ' ∉ sizeTok) (hv1 : valTok ≠ [])
    (hv2 : ' ' ∉ valTok) (htail : ∀ c ∈ tail.head?, c = ' ')
    (hps : pf sizeTok = some s) (hs : s ≠ -1) (hpv : pf valTok = some v) :
    latencyWords pf unit
        (splitStr (sizeTok ++ List.replicate (n + 1) ' ' ++ valTok ++ tail) " ".toList) (-1) =
      .done (v, unit, none) := by
  have hl : sizeTok ++ List.replicate (n + 1) ' ' ++ valTok ++ tail =
      sizeTok ++ ' ' :: (List.replicate n ' ' ++ (valTok ++ tail)) := by
    simp [List.replicate_succ]
  have hval : ∃ more, splitAux [' '] (valTok ++ tail) 0 = valTok :: more := by
    cases tail with
    | nil => exact ⟨[], by simpa using splitAux_singleton_last ' ' valTok hv2⟩
    | cons c t =>
      have hc : c = ' ' := htail c (by simp)
      subst hc
      exact ⟨_, splitAux_singleton_cons ' ' valTok t hv2⟩
  obtain ⟨more, hmore⟩ := hval
  have hsplit : splitStr (sizeTok ++ List.replicate (n + 1) ' ' ++ valTok ++ tail) " ".toList =
      sizeTok :: (List.replicate n [] ++ valTok :: more) := by
    rw [hl]
    simp only [splitStr, show " ".toList = [' '] by rfl, show ([' '] : GoString) ≠ [] by simp,
      if_false]
    rw [splitAux_singleton_cons ' ' _ _ hs2, splitAux_singleton_replicate, hmore]
  rw [hsplit, latencyWords]
  simp only [isToken_of_no_space hs1 hs2, Bool.not_true, Bool.false_eq_true, if_false, if_true,
    hps]
  rw [latencyWords_replicate_nil, latencyWords]
  simp only [isToken_of_no_space hv1 hv2, Bool.not_true, Bool.false_eq_true, if_false, hs, hpv]

/-! ## Claims on `GetLatency` -/

/-- C6.  For every OSU latency file in which, after the first line, comment
or empty lines lead to the first data line, one of these comments reads
`#…Latency (<unit>)…` (no parenthesis before `Latency (` nor in the unit, no
other comment with `Latency (`), and the data line is `<size> <value>` with
one or more spaces between them and a non-negative size, `GetLatency` returns
the declared unit verbatim and the second token of that first data line. -/
theorem GetLatency_valid (w : World) (r : Results) (f content first : GoString)
    (pre mid rest : List GoString) (a u b sizeTok valTok tail : GoString) (n : Nat) (s v : ℚ)
    (hfile : GoMap.get? r.osuResultFiles "osu_latency".toList = some f) (hf : f ≠ [])
    (hread : w.readFile (w.join r.resultsDir f) = some content)
    (hlines : splitStr content "\n".toList =
      first :: (pre ++ ('#' :: a ++ latencyMark ++ u ++ ')' :: b) ::
        (mid ++ (sizeTok ++ List.replicate (n + 1) ' ' ++ valTok ++ tail) :: rest)))
    (hcomments : ∀ l ∈ pre ++ mid, isCommentLine l = true ∧ containsStr l latencyMark = false)
    (ha : '(' ∉ a) (hu1 : '(' ∉ u) (hu2 : ')' ∉ u)
    (hs1 : sizeTok ≠ []) (hs2 : ' ' ∉ sizeTok) (hs3 : sizeTok.head? ≠ some '#')
    (hv1 : valTok ≠ []) (hv2 : ' ' ∉ valTok) (htail : ∀ c ∈ tail.head?, c = ' ')
    (hps : w.parseFloat sizeTok = some s) (hs : 0 ≤ s) (hpv : w.parseFloat valTok = some v) :
    GetLatency w r = .ret (v, u, none) := by
  obtain ⟨hc1, hc2, hc3⟩ := commentUnit_wellFormed a u b ha hu1 hu2
  have hdata : isCommentLine (sizeTok ++ List.replicate (n + 1) ' ' ++ valTok ++ tail) = false := by
    cases sizeTok with
    | nil => exact absurd rfl hs1
    | cons c t =>
      have hc : c ≠ '#' := by simpa using hs3
      have hc' : ('#' == c) = false := by
        simpa using fun e : '#' = c => hc e.symm
      simp [isCommentLine, hasPrefixStr, List.isPrefixOf, hc']
  have hs' : s ≠ -1 := by
    intro h; rw [h] at hs; exact absurd hs (by norm_num)
  unfold GetLatency
  simp only [hfile, Option.getD_some, hf, if_false, hread, hlines, List.tail_cons]
  rw [latencyLines_skip _ _ _ _ _ (fun l hl => hcomments l (by simp [hl])), latencyLines]
  simp only [hc1, hc2, hc3, if_true]
  rw [latencyLines_skip _ _ _ _ _ (fun l hl => hcomments l (by simp [hl])), latencyLines]
  simp only [hdata, Bool.false_eq_true, if_false,
    latencyWords_dataLine w.parseFloat u sizeTok valTok tail n s v hs1 hs2 hv1 hv2 htail hps hs' hpv]

/-- C6 at a file in the layout of the OSU latency test: the size in a
column of ten characters, then the value. -/
theorem GetLatency_valid_witness :
    GetLatency
        (fileWorld
          "header\n# OSU MPI Latency Test\n# Size Latency (us)\n0         1.23\n1         1.30\n".toList)
        latencyResults =
      .ret (123 / 100, "us".toList, none) :=
  GetLatency_valid _ latencyResults "lat.out".toList _ "header".toList
    ["# OSU MPI Latency Test".toList] [] ["1         1.30".toList, []]
    " Size ".toList "us".toList [] "0".toList "1.23".toList [] 8 0 (123 / 100)
    (by decide) (by decide) rfl (by decide) (by decide) (by decide) (by decide) (by decide)
    (by decide) (by decide) (by decide) (by decide) (by decide) (by decide)
    (by decide!) (le_refl 0) (by decide!)

/-- C7 (amended).  For the latency file whose lines are `header`,
`# Size Latency (us)`, `0 1.23 4.56`, `GetLatency` returns the latency 1.23,
the second token of the data line, and the unit `us`. -/
theorem GetLatency_scenario :
    GetLatency (fileWorld "header\n# Size Latency (us)\n0 1.23 4.56".toList) latencyResults =
      .ret (123 / 100, "us".toList, none) := by
  decide!

/-- C7 as stated fails: on that file the latency returned is not 4.56. -/
theorem GetLatency_scenario_counterexample :
    splitStr "header\n# Size Latency (us)\n0 1.23 4.56".toList "\n".toList =
        ["header".toList, "# Size Latency (us)".toList, "0 1.23 4.56".toList] ∧
      GetLatency (fileWorld "header\n# Size Latency (us)\n0 1.23 4.56".toList) latencyResults ≠
        .ret (456 / 100, "us".toList, none) := by
  refine ⟨by decide, ?_⟩
  decide!

/-- The walk back over the empty lines at the end of the text. -/
theorem lastNonEmpty_trailing (body : List GoString) :
    ∀ (trailing : List GoString), (∀ l ∈ trailing, l = []) →
      lastNonEmpty (body ++ trailing) (body.length + trailing.length) =
        lastNonEmpty (body ++ trailing) body.length := by
  intro trailing
  induction trailing using List.reverseRecOn with
  | nil => intro _; rfl
  | append_singleton t l ih =>
    intro h
    have hl : l = [] := h l (by simp)
    have ht : ∀ l' ∈ t, l' = [] := fun l' hl' => h l' (by simp [hl'])
    have hidx : (body ++ (t ++ [l]))[body.length + t.length]? = some l := by
      rw [← List.append_assoc, List.getElem?_append_right (by simp)]
      simp
    have hstep : lastNonEmpty (body ++ (t ++ [l])) (body.length + t.length + 1) =
        lastNonEmpty (body ++ (t ++ [l])) (body.length + t.length) := by
      rw [lastNonEmpty, hidx]
      simp [hl]
    have hsame : ∀ k, k ≤ body.length + t.length →
        lastNonEmpty (body ++ (t ++ [l])) k = lastNonEmpty (body ++ t) k := by
      intro k
      induction k with
      | zero => intro _; rfl
      | succ k ihk =>
        intro hk
        have e : (body ++ (t ++ [l]))[k]? = (body ++ t)[k]? := by
          rw [← List.append_assoc, List.getElem?_append_left (by simp; omega)]
        rw [lastNonEmpty, lastNonEmpty, e, ihk (by omega)]
    simp only [List.length_append, List.length_singleton, ← Nat.add_assoc]
    rw [hstep, hsame _ (le_refl _), hsame _ (by omega)]
    exact ih ht

theorem collapseSpaces_unfold (l : GoString) :
    collapseSpaces l =
      if containsStr l "  ".toList = true then collapseSpaces (collapseRound l) else l := by
  rw [collapseSpaces]
  split <;> rfl

theorem replaceAux_two_spaces (t : GoString) :
    replaceAux "  ".toList " ".toList (' ' :: ' ' :: t) 0 =
      ' ' :: replaceAux "  ".toList " ".toList t 0 := by
  simp [replaceAux, List.isPrefixOf]

theorem replaceAux_other (c : Char) (t : GoString)
    (h : ("  ".toList).isPrefixOf (c :: t) = false) :
    replaceAux "  ".toList " ".toList (c :: t) 0 =
      c :: replaceAux "  ".toList " ".toList t 0 := by
  rw [replaceAux, h]
  simp

theorem beq_space (c : Char) : (' ' == c) = decide (c = ' ') := by
  by_cases hc : c = ' '
  · simp [hc]
  · have : ¬ ' ' = c := fun e => hc e.symm
    simp [hc, this]

theorem isPrefixOf_two_spaces (c d : Char) (t : GoString) :
    ("  ".toList).isPrefixOf (c :: d :: t) = (decide (c = ' ') && decide (d = ' ')) := by
  have e : "  ".toList = [' ', ' '] := rfl
  rw [e]
  simp only [List.isPrefixOf, beq_space, Bool.and_true]

theorem squeezeSpaces_cons (c : Char) (x : GoString) :
    squeezeSpaces (c :: x) =
      if c = ' ' ∧ x.head? = some ' ' then squeezeSpaces x else c :: squeezeSpaces x := by
  cases x with
  | nil => simp [squeezeSpaces]
  | cons d t => simp [squeezeSpaces]

/-- A round of the loop changes neither what the collapsing gives nor
whether the text starts with a space. -/
theorem squeezeSpaces_round :
    ∀ (n : Nat) (s : GoString), s.length ≤ n →
      squeezeSpaces (replaceAux "  ".toList " ".toList s 0) = squeezeSpaces s ∧
        ((replaceAux "  ".toList " ".toList s 0).head? = some ' ' ↔ s.head? = some ' ') := by
  intro n
  induction n with
  | zero =>
    intro s hs
    have : s = [] := List.eq_nil_of_length_eq_zero (by omega)
    subst this
    exact ⟨rfl, Iff.rfl⟩
  | succ n ih =>
    intro s hs
    match s, hs with
    | [], _ => exact ⟨rfl, Iff.rfl⟩
    | [a], _ =>
      have : replaceAux "  ".toList " ".toList [a] 0 = [a] := by
        simp [replaceAux, List.isPrefixOf]
      rw [this]
      exact ⟨rfl, Iff.rfl⟩
    | a :: b :: t, hs =>
      simp only [List.length_cons] at hs
      by_cases hab : a = ' ' ∧ b = ' '
      · obtain ⟨rfl, rfl⟩ := hab
        obtain ⟨h1, h2⟩ := ih t (by omega)
        rw [replaceAux_two_spaces]
        refine ⟨?_, by simp⟩
        rw [squeezeSpaces_cons, squeezeSpaces_cons ' ' (' ' :: t), squeezeSpaces_cons ' ' t, h1]
        simp only [h2]
        simp
      · obtain ⟨h1, h2⟩ := ih (b :: t) (by simp only [List.length_cons]; omega)
        have hp : ("  ".toList).isPrefixOf (a :: b :: t) = false := by
          rw [isPrefixOf_two_spaces]
          simpa using hab
        rw [replaceAux_other a (b :: t) hp]
        refine ⟨?_, by simp⟩
        rw [squeezeSpaces_cons, squeezeSpaces_cons a (b :: t), h1]
        simp only [h2]

theorem containsStr_eq_isSome (s sub : GoString) :
    containsStr s sub = (indexOf? s sub).isSome := by
  unfold containsStr indexStr
  split
  · rename_i i h; rw [h]; simp
  · rename_i h; rw [h]; simp

theorem containsStr_cons (c : Char) (t sub : GoString) :
    containsStr (c :: t) sub = (sub.isPrefixOf (c :: t) || containsStr t sub) := by
  rw [containsStr_eq_isSome, containsStr_eq_isSome, indexOf?]
  by_cases hp : sub.isPrefixOf (c :: t) = true
  · simp [hp]
  · have hp' : sub.isPrefixOf (c :: t) = false := Bool.eq_false_iff.mpr hp
    rw [hp']
    simp

/-- The collapsing leaves a text without two consecutive spaces as it is. -/
theorem squeezeSpaces_of_not_contains :
    ∀ (l : GoString), containsStr l "  ".toList = false → squeezeSpaces l = l
  | [], _ => rfl
  | [_], _ => rfl
  | c :: d :: t, h => by
    rw [containsStr_cons, isPrefixOf_two_spaces] at h
    simp only [Bool.or_eq_false_iff, Bool.and_eq_false_iff, decide_eq_false_iff_not] at h
    have hcd : ¬ (c = ' ' ∧ d = ' ') := fun hh => by
      rcases h.1 with h1 | h1
      · exact h1 hh.1
      · exact h1 hh.2
    rw [squeezeSpaces, if_neg hcd, squeezeSpaces_of_not_contains (d :: t) h.2]

theorem collapseRound_length_lt (l : GoString) (h : containsStr l "  ".toList = true) :
    (collapseRound l).length < l.length := by
  simp only [collapseRound, replaceAllStr]
  exact replaceAux_length_lt _ _ (by decide) l h

theorem squeezeSpaces_collapseRound (l : GoString) :
    squeezeSpaces (collapseRound l) = squeezeSpaces l := by
  simp only [collapseRound, replaceAllStr]
  exact (squeezeSpaces_round l.length l (le_refl _)).1

/-- The loop ends, after at most as many rounds as the line has characters,
on a line without two consecutive spaces, which is the line the
specification's collapsing gives. -/
theorem collapseSpaces_spec :
    ∀ (n : Nat) (l : GoString), l.length ≤ n →
      containsStr (collapseSpaces l) "  ".toList = false ∧
        collapseSpaces l = squeezeSpaces l ∧
        ∃ k, k ≤ l.length ∧ collapseRound^[k] l = collapseSpaces l := by
  intro n
  induction n with
  | zero =>
    intro l hl
    have : l = [] := List.eq_nil_of_length_eq_zero (by omega)
    subst this
    refine ⟨by decide!, by decide!, 0, le_refl _, by decide!⟩
  | succ n ih =>
    intro l hl
    by_cases hc : containsStr l "  ".toList = true
    · have hlt := collapseRound_length_lt l hc
      obtain ⟨h1, h2, k, hk, h3⟩ := ih (collapseRound l) (by omega)
      rw [collapseSpaces_unfold, if_pos hc]
      refine ⟨h1, by rw [h2, squeezeSpaces_collapseRound], k + 1, by omega, ?_⟩
      rw [Function.iterate_succ_apply, h3]
    · have hc' : containsStr l "  ".toList = false := by simpa using hc
      rw [collapseSpaces_unfold, if_neg hc]
      exact ⟨hc', (squeezeSpaces_of_not_contains l hc').symm, 0, Nat.zero_le _, rfl⟩

/-! ## Claims on `GetSMBOverlap` -/

/-- C17.  The space-collapsing loop of `GetSMBOverlap` terminates for every
line, after at most as many rounds as the line has characters; its result
contains no two consecutive spaces and is the line with every maximal run of
two or more spaces replaced by a single space; a line without two consecutive
spaces is left unchanged. -/
theorem collapseSpaces_terminates_and_squeezes (line : GoString) :
    (∃ k, k ≤ line.length ∧ collapseRound^[k] line = collapseSpaces line) ∧
      containsStr (collapseSpaces line) "  ".toList = false ∧
      collapseSpaces line = squeezeSpaces line ∧
      (containsStr line "  ".toList = false → collapseSpaces line = line) := by
  obtain ⟨h1, h2, h3⟩ := collapseSpaces_spec line.length line (le_refl _)
  refine ⟨h3, h1, h2, ?_⟩
  intro h
  rw [h2, squeezeSpaces_of_not_contains line h]

/-- C13.  On a readable `smb_mpi_overhead` file, `GetSMBOverlap` returns an
error when the content does not split at line feeds into exactly 4 lines (the
error holds the number of lines), and when line index 2, its runs of spaces
collapsed and split at single spaces, has a number of tokens other than 8
(the error holds that number). -/
theorem GetSMBOverlap_format_error (w : World) (r : Results) (f content : GoString)
    (hfile : GoMap.get? r.smbResultFiles "smb_mpi_overhead".toList = some f) (hf : f ≠ [])
    (hread : w.readFile (w.join r.resultsDir f) = some content)
    (hbad : (splitStr content "\n".toList).length ≠ 4 ∨
      ∃ line, (splitStr content "\n".toList)[2]? = some line ∧
        (splitStr (squeezeSpaces line) " ".toList).length ≠ 8) :
    ∃ e, GetSMBOverlap w r = .ret (0, some e) ∧
      (e = Err.smbLineCount (splitStr content "\n".toList).length ∨
        ∃ n, n ≠ 8 ∧ e = Err.smbTokenCount n) := by
  unfold GetSMBOverlap
  simp only [hfile, Option.getD_some, hf, if_false, hread]
  by_cases h4 : (splitStr content "\n".toList).length ≠ 4
  · rw [if_pos h4]
    exact ⟨_, rfl, Or.inl rfl⟩
  · rw [if_neg h4]
    rcases hbad with h | ⟨line, hl, hw⟩
    · exact absurd h h4
    · rw [hl]
      simp only [(collapseSpaces_spec line.length line (le_refl _)).2.1]
      rw [if_pos hw]
      exact ⟨_, rfl, Or.inr ⟨_, hw, rfl⟩⟩

/-- C13 at a file of three lines. -/
theorem GetSMBOverlap_format_error_witness :
    ∃ e, GetSMBOverlap (fileWorld "line0\n0 1 2 3 4 5 6 7\n".toList) smbResults =
        .ret (0, some e) ∧
      (e = Err.smbLineCount (splitStr "line0\n0 1 2 3 4 5 6 7\n".toList "\n".toList).length ∨
        ∃ n, n ≠ 8 ∧ e = Err.smbTokenCount n) :=
  GetSMBOverlap_format_error _ smbResults "smb.out".toList _ (by decide) (by decide) rfl
    (Or.inl (by decide))

/-- C14.  For every readable SMB file of 4 lines whose line index 2, its runs
of spaces collapsed, splits at single spaces into exactly 8 tokens of which
the one at index 6 is a number, `GetSMBOverlap` returns that number and no
error. -/
theorem GetSMBOverlap_value (w : World) (r : Results) (f content line tok : GoString) (v : ℚ)
    (hfile : GoMap.get? r.smbResultFiles "smb_mpi_overhead".toList = some f) (hf : f ≠ [])
    (hread : w.readFile (w.join r.resultsDir f) = some content)
    (hlines : (splitStr content "\n".toList).length = 4)
    (hline : (splitStr content "\n".toList)[2]? = some line)
    (hwords : (splitStr (squeezeSpaces line) " ".toList).length = 8)
    (htok : (splitStr (squeezeSpaces line) " ".toList)[6]? = some tok)
    (hv : w.parseFloat tok = some v) :
    GetSMBOverlap w r = .ret (v, none) := by
  unfold GetSMBOverlap
  simp only [hfile, Option.getD_some, hf, if_false, hread, hlines, ne_eq, not_true_eq_false,
    hline, (collapseSpaces_spec line.length line (le_refl _)).2.1, hwords, htok, hv]

/-- C14 at the specification's scenario: line 2 is
`0  64   128  256  512  1.5   2.75  99`, the overhead returned is 2.75. -/
theorem GetSMBOverlap_value_witness :
    GetSMBOverlap
        (fileWorld "line0\nline1\n0  64   128  256  512  1.5   2.75  99\n".toList) smbResults =
      .ret (275 / 100, none) :=
  GetSMBOverlap_value _ smbResults "smb.out".toList _
    "0  64   128  256  512  1.5   2.75  99".toList "2.75".toList (275 / 100)
    (by decide) (by decide) rfl (by decide) (by decide) (by decide) (by decide) (by decide!)

/-! ## Further lemmas on `GetBandwidth` -/

/-- One round of the loop of `GetBandwidth`, by the value of the row. -/
theorem bandwidthLoop_cons (clean : GoString → GoString) (pf : GoString → Option ℚ)
    (text : List GoString) (idx : Nat) (unit : GoString) (i : Nat) (is : List Nat) (bw : ℚ)
    (row : GoString) (hi : i ≤ idx) (hget : text[idx - i]? = some row) :
    (∀ v, rowValue clean pf row = some v →
        bandwidthLoop clean pf text idx unit (i :: is) bw =
          bandwidthLoop clean pf text idx unit is (max v bw)) ∧
      (rowValue clean pf row = none →
        ∃ e, bandwidthLoop clean pf text idx unit (i :: is) bw =
          .ret (.done (-1, unit, some e))) := by
  have hmax : ∀ v : ℚ, (if bw < v then v else bw) = max v bw := by
    intro v
    by_cases h : bw < v
    · simp [h, max_eq_left (le_of_lt h)]
    · simp [h, max_eq_right (not_lt.mp h)]
  rw [bandwidthLoop]
  simp only [not_lt.mpr hi, if_false, hget, rowValue]
  match hs : splitStr (clean row) " ".toList with
  | [] => simp
  | [a] => simp
  | [a, tok] =>
    simp only [List.length_cons, List.length_nil, ne_eq, not_true_eq_false, if_false,
      List.getElem?_cons_succ, List.getElem?_cons_zero, Nat.reduceAdd]
    cases hp : pf (trimLeftStr (trimLeftStr tok " ".toList) "\t".toList) with
    | none => simp
    | some v => simp [hmax]
  | a :: b :: c :: t => simp

/-- When the loop ends without returning, every row it visited was a
candidate row, and the state is the largest of their values and the start
value. -/
theorem bandwidthLoop_next (clean : GoString → GoString) (pf : GoString → Option ℚ)
    (text : List GoString) (idx : Nat) (unit : GoString) :
    ∀ (is : List Nat) (bw V : ℚ),
      bandwidthLoop clean pf text idx unit is bw = .ret (.next V) →
      ∃ vals, List.Forall₂ (RowAbove clean pf text idx) is vals ∧
        V = vals.foldl (fun b v => max v b) bw := by
  intro is
  induction is with
  | nil =>
    intro bw V h
    simp only [bandwidthLoop, Run.ret.injEq, Step.next.injEq] at h
    exact ⟨[], .nil, h.symm⟩
  | cons i is ih =>
    intro bw V h
    by_cases hi : idx < i
    · simp [bandwidthLoop, hi] at h
    · have hi' : i ≤ idx := not_lt.mp hi
      cases hrow : text[idx - i]? with
      | none => simp [bandwidthLoop, hi, hrow] at h
      | some row =>
        obtain ⟨h1, h2⟩ := bandwidthLoop_cons clean pf text idx unit i is bw row hi' hrow
        cases hv : rowValue clean pf row with
        | none =>
          obtain ⟨e, he⟩ := h2 hv
          rw [he] at h
          simp at h
        | some v =>
          rw [h1 v hv] at h
          obtain ⟨vals, hf, hV⟩ := ih _ _ h
          exact ⟨v :: vals, .cons ⟨hi', row, hrow, hv⟩ hf, hV⟩

/-- When the loop returns, it returns an error. -/
theorem bandwidthLoop_done (clean : GoString → GoString) (pf : GoString → Option ℚ)
    (text : List GoString) (idx : Nat) (unit : GoString) :
    ∀ (is : List Nat) (bw : ℚ) (res : ℚ × GoString × Option Err),
      bandwidthLoop clean pf text idx unit is bw = .ret (.done res) →
      ∃ e, res = (-1, unit, some e) := by
  intro is
  induction is with
  | nil => intro bw res h; simp [bandwidthLoop] at h
  | cons i is ih =>
    intro bw res h
    by_cases hi : idx < i
    · simp [bandwidthLoop, hi] at h
    · have hi' : i ≤ idx := not_lt.mp hi
      cases hrow : text[idx - i]? with
      | none => simp [bandwidthLoop, hi, hrow] at h
      | some row =>
        obtain ⟨h1, h2⟩ := bandwidthLoop_cons clean pf text idx unit i is bw row hi' hrow
        cases hv : rowValue clean pf row with
        | none =>
          obtain ⟨e, he⟩ := h2 hv
          rw [he] at h
          simp only [Run.ret.injEq, Step.done.injEq] at h
          exact ⟨e, h.symm⟩
        | some v =>
          rw [h1 v hv] at h
          exact ih _ _ h

/-- The largest of the start value and the values, for a start value that is
not negative. -/
theorem foldl_max_eq_peakOf : ∀ (vals : List ℚ) (bw : ℚ), 0 ≤ bw →
    vals.foldl (fun b v => max v b) bw = max bw (peakOf vals) := by
  intro vals
  induction vals with
  | nil => intro bw h; simp [peakOf, max_eq_left h]
  | cons v t ih =>
    intro bw h
    have hp : peakOf (v :: t) = max v (peakOf t) := rfl
    rw [List.foldl_cons, ih _ (le_trans h (le_max_right _ _)), hp, max_comm v bw, max_assoc]

theorem peakOf_nonneg (vals : List ℚ) : 0 ≤ peakOf vals := by
  cases vals with
  | nil => exact le_refl 0
  | cons v t =>
    have hp : peakOf (v :: t) = max v (peakOf t) := rfl
    rw [hp]
    exact le_trans (peakOf_nonneg t) (le_max_right _ _)

/-- Where the walk back over the empty lines stops. -/
theorem lastNonEmpty_some (text : List GoString) :
    ∀ (n idx : Nat), lastNonEmpty text n = some idx →
      idx < n ∧ (∃ l, text[idx]? = some l ∧ l ≠ []) ∧
        ∀ j, idx < j → j < n → text[j]? = some [] := by
  intro n
  induction n with
  | zero => intro idx h; simp [lastNonEmpty] at h
  | succ n ih =>
    intro idx h
    rw [lastNonEmpty] at h
    cases hl : text[n]? with
    | none => simp [hl] at h
    | some line =>
      simp only [hl] at h
      by_cases he : line = []
      · rw [if_pos he] at h
        obtain ⟨h1, h2, h3⟩ := ih idx h
        refine ⟨by omega, h2, ?_⟩
        intro j hj hjn
        by_cases hjn' : j < n
        · exact h3 j hj hjn'
        · have : j = n := by omega
          rw [this, hl, he]
      · rw [if_neg he] at h
        cases h
        exact ⟨by omega, ⟨line, hl, he⟩, fun j hj hjn => by omega⟩

theorem lastNonEmpty_all_empty (text : List GoString) (h : ∀ l ∈ text, l = []) :
    ∀ n, lastNonEmpty text n = none := by
  intro n
  induction n with
  | zero => rfl
  | succ n ih =>
    rw [lastNonEmpty]
    cases hl : text[n]? with
    | none => rfl
    | some line =>
      have : line = [] := h line (List.getElem?_mem hl)
      simp [this, ih]

/-- On a text without a non-empty line, and on a text of fewer than three
lines, `GetBandwidth` panics. -/
theorem GetBandwidth_panics (clean : GoString → GoString) (pf : GoString → Option ℚ) (d : Data)
    (h : d.Text.length < 3 ∨ ∀ l ∈ d.Text, l = []) :
    GetBandwidth clean pf (some d) = .panic := by
  unfold GetBandwidth
  cases h2 : d.Text[2]? with
  | none => simp only [h2]
  | some header =>
    rcases h with h | h
    · have := List.getElem?_eq_none_iff.mpr (show d.Text.length ≤ 2 by omega)
      rw [this] at h2
      cases h2
    · simp only [h2, lastNonEmpty_all_empty d.Text h]

/-- What `GetBandwidth` returns when the loop over the rows did not run into
an error: every visited row was a candidate row, and the result is the peak
of their values, converted. -/
theorem GetBandwidth_accepted (clean : GoString → GoString) (pf : GoString → Option ℚ)
    (d : Data) (x : ℚ) (u : GoString)
    (h : GetBandwidth clean pf (some d) = .ret (x, u, none)) :
    ∃ header idx vals, d.Text[2]? = some header ∧
      lastNonEmpty d.Text d.Text.length = some idx ∧
      (∃ last, d.Text[idx]? = some last ∧ hasPrefixStr last "4194304".toList = true) ∧
      List.Forall₂ (RowAbove clean pf d.Text idx) [0, 1, 2, 3, 4, 5] vals ∧
      (x, u, none) = converted (peakOf vals) (derivedUnit clean header) := by
  unfold GetBandwidth at h
  cases h2 : d.Text[2]? with
  | none => simp [h2] at h
  | some header =>
    simp only [h2] at h
    cases hidx : lastNonEmpty d.Text d.Text.length with
    | none => simp [hidx] at h
    | some idx =>
      simp only [hidx] at h
      cases hlast : d.Text[idx]? with
      | none => simp [hlast] at h
      | some last =>
        simp only [hlast] at h
        by_cases hp : hasPrefixStr last "4194304".toList = true
        · simp only [hp, Bool.not_true, Bool.false_eq_true, if_false] at h
          have hu : trimSuffixStr (trimPrefixStr (clean header) "# Size Bandwidth (".toList)
              ")".toList = derivedUnit clean header := rfl
          rw [hu] at h
          cases hloop : bandwidthLoop clean pf d.Text idx (derivedUnit clean header)
              [0, 1, 2, 3, 4, 5] 0 with
          | panic => simp [hloop] at h
          | ret st =>
            cases st with
            | done res =>
              obtain ⟨e, he⟩ := bandwidthLoop_done clean pf d.Text idx _ _ _ _ hloop
              simp [hloop, he] at h
            | next V =>
              obtain ⟨vals, hf, hV⟩ := bandwidthLoop_next clean pf d.Text idx _ _ _ _ hloop
              rw [foldl_max_eq_peakOf vals 0 (le_refl 0),
                max_eq_right (peakOf_nonneg vals)] at hV
              refine ⟨header, idx, vals, rfl, rfl, ⟨last, hlast, hp⟩, hf, ?_⟩
              simp only [hloop] at h
              unfold converted
              rw [← hV]
              split
              · rename_i hm
                rw [if_pos hm] at h
                simp only [Run.ret.injEq] at h
                exact h.symm
              · rename_i hm
                rw [if_neg hm] at h
                simp only [Run.ret.injEq] at h
                exact h.symm
        · have hp' : hasPrefixStr last "4194304".toList = false := Bool.eq_false_iff.mpr hp
          simp only [hp', Bool.not_false, if_true, Run.ret.injEq, Prod.mk.injEq] at h
          exact absurd h.2.2 (by simp)

/-- `GetBandwidth` at the last non-empty line of a text of three lines or
more: the test for `4194304`, then the loop over the rows from that line. -/
theorem GetBandwidth_last (clean : GoString → GoString) (pf : GoString → Option ℚ) (d : Data)
    (header last : GoString) (pre trailing : List GoString)
    (htext : d.Text = pre ++ last :: trailing) (htrail : ∀ l ∈ trailing, l = [])
    (hne : last ≠ []) (hheader : d.Text[2]? = some header) :
    GetBandwidth clean pf (some d) =
      if !hasPrefixStr last "4194304".toList then
        .ret (-1, derivedUnit clean header, some (Err.no4M last pre.length))
      else
        match bandwidthLoop clean pf d.Text pre.length (derivedUnit clean header)
            [0, 1, 2, 3, 4, 5] 0 with
        | .panic => .panic
        | .ret (.done res) => .ret res
        | .ret (.next bw) => .ret (converted bw (derivedUnit clean header)) := by
  have hget : d.Text[pre.length]? = some last := by
    rw [htext, List.getElem?_append_right (le_refl _)]
    simp
  have hidx : lastNonEmpty d.Text d.Text.length = some pre.length := by
    have e : d.Text.length = (pre ++ [last]).length + trailing.length := by
      rw [htext]; simp; omega
    have e2 : d.Text = (pre ++ [last]) ++ trailing := by rw [htext]; simp
    rw [e, e2, lastNonEmpty_trailing _ _ htrail, ← e2]
    have e3 : (pre ++ [last]).length = pre.length + 1 := by simp
    rw [e3, lastNonEmpty, hget]
    simp [hne]
  unfold GetBandwidth
  simp only [hheader, hidx, hget]
  have hu : trimSuffixStr (trimPrefixStr (clean header) "# Size Bandwidth (".toList)
      ")".toList = derivedUnit clean header := rfl
  rw [hu]
  split
  · rfl
  · split
    · rfl
    · rfl
    · unfold converted
      split <;> rfl

/-! ## Further claims on `GetBandwidth` -/

/-- C11.  For every record that `GetBandwidth` accepts, with `V` the peak of
the values of the six rows from the last non-empty line upwards: when the
unit derived from line index 2 is `MB/s` the result is `V / 125` with the unit
`Gb/s`, and for every other derived unit it is `V` with that unit. -/
theorem GetBandwidth_conversion (clean : GoString → GoString) (pf : GoString → Option ℚ)
    (d : Data) (x : ℚ) (u : GoString)
    (h : GetBandwidth clean pf (some d) = .ret (x, u, none)) :
    ∃ header idx vals, d.Text[2]? = some header ∧
      lastNonEmpty d.Text d.Text.length = some idx ∧
      List.Forall₂ (RowAbove clean pf d.Text idx) [0, 1, 2, 3, 4, 5] vals ∧
      (derivedUnit clean header = "MB/s".toList →
        x = peakOf vals / 125 ∧ u = "Gb/s".toList) ∧
      (derivedUnit clean header ≠ "MB/s".toList →
        x = peakOf vals ∧ u = derivedUnit clean header) := by
  obtain ⟨header, idx, vals, h1, h2, -, h4, h5⟩ := GetBandwidth_accepted clean pf d x u h
  refine ⟨header, idx, vals, h1, h2, h4, ?_, ?_⟩
  · intro hm
    rw [converted, if_pos hm] at h5
    simp only [Prod.mk.injEq] at h5
    exact ⟨h5.1, h5.2.1⟩
  · intro hm
    rw [converted, if_neg hm] at h5
    simp only [Prod.mk.injEq] at h5
    exact ⟨h5.1, h5.2.1⟩

/-- C11 at the end of an OSU bandwidth file in `MB/s`: the peak 1250 is
returned as 10 `Gb/s`. -/
theorem GetBandwidth_conversion_witness :
    ∃ header idx vals,
      (bwHead ++ bwRows ++ [[]])[2]? = some header ∧
      lastNonEmpty (bwHead ++ bwRows ++ [[]]) (bwHead ++ bwRows ++ [[]]).length = some idx ∧
      List.Forall₂ (RowAbove CleanOSUline parseDecimal (bwHead ++ bwRows ++ [[]]) idx)
        [0, 1, 2, 3, 4, 5] vals ∧
      (derivedUnit CleanOSUline header = "MB/s".toList →
        (10 : ℚ) = peakOf vals / 125 ∧ "Gb/s".toList = "Gb/s".toList) ∧
      (derivedUnit CleanOSUline header ≠ "MB/s".toList →
        (10 : ℚ) = peakOf vals ∧ "Gb/s".toList = derivedUnit CleanOSUline header) :=
  GetBandwidth_conversion CleanOSUline parseDecimal
    { Text := bwHead ++ bwRows ++ [[]], Unit := [] } 10 "Gb/s".toList (by decide!)

/-- C12, the code.  On a record without a non-empty line `GetBandwidth`
panics (it reads `d.Text[-1]`) instead of returning an error.  On a record of
three lines or more that has a non-empty line it returns an error, with the
value `-1`, when the last non-empty line does not start with `4194304`, and
when that line starts with `4194304` and does not normalize to a size and a
numeric value. -/
theorem GetBandwidth_error_or_panic :
    GetBandwidth CleanOSUline parseDecimal (some emptyRecord) = .panic ∧
    (∀ (clean : GoString → GoString) (pf : GoString → Option ℚ) (d : Data),
      (∀ l ∈ d.Text, l = []) → GetBandwidth clean pf (some d) = .panic) ∧
    (∀ (clean : GoString → GoString) (pf : GoString → Option ℚ) (d : Data)
      (header last : GoString) (pre trailing : List GoString),
      d.Text = pre ++ last :: trailing → (∀ l ∈ trailing, l = []) → last ≠ [] →
      d.Text[2]? = some header → hasPrefixStr last "4194304".toList = false →
      GetBandwidth clean pf (some d) =
        .ret (-1, derivedUnit clean header, some (Err.no4M last pre.length))) ∧
    (∀ (clean : GoString → GoString) (pf : GoString → Option ℚ) (d : Data)
      (header last : GoString) (pre trailing : List GoString),
      d.Text = pre ++ last :: trailing → (∀ l ∈ trailing, l = []) → last ≠ [] →
      d.Text[2]? = some header → hasPrefixStr last "4194304".toList = true →
      rowValue clean pf last = none →
      ∃ e, GetBandwidth clean pf (some d) = .ret (-1, derivedUnit clean header, some e)) := by
  refine ⟨by decide!, fun clean pf d h => GetBandwidth_panics clean pf d (Or.inr h), ?_, ?_⟩
  · intro clean pf d header last pre trailing htext htrail hne hh hp
    rw [GetBandwidth_last clean pf d header last pre trailing htext htrail hne hh, hp]
    rfl
  · intro clean pf d header last pre trailing htext htrail hne hh hp hrow
    rw [GetBandwidth_last clean pf d header last pre trailing htext htrail hne hh, hp]
    have hget : d.Text[pre.length - 0]? = some last := by
      rw [htext, Nat.sub_zero, List.getElem?_append_right (le_refl _)]
      simp
    obtain ⟨e, he⟩ := (bandwidthLoop_cons clean pf d.Text pre.length (derivedUnit clean header)
      0 [1, 2, 3, 4, 5] 0 last (Nat.zero_le _) hget).2 hrow
    rw [he]
    exact ⟨e, rfl⟩

/-- C19, the code.  `GetBandwidth` panics on every record of fewer than
three lines (it reads `d.Text[2]`), on the record of three empty lines (it
reads `d.Text[-1]`), and on the record of three candidate rows that ends with
the row for `4194304` (it reads `d.Text[-1]` in the loop over the six rows). -/
theorem GetBandwidth_not_total :
    (∀ (clean : GoString → GoString) (pf : GoString → Option ℚ) (d : Data),
      d.Text.length < 3 → GetBandwidth clean pf (some d) = .panic) ∧
    GetBandwidth CleanOSUline parseDecimal (some oneLineRecord) = .panic ∧
    GetBandwidth CleanOSUline parseDecimal (some emptyRecord) = .panic ∧
    GetBandwidth CleanOSUline parseDecimal (some threeRowRecord) = .panic := by
  refine ⟨fun clean pf d h => GetBandwidth_panics clean pf d (Or.inl h), ?_, ?_, ?_⟩
  · decide!
  · decide!
  · decide!

/-! ## Further claim on `GetLatency` -/

/-- `Latency (` does not occur in a text without `(`. -/
theorem noStart_latencyMark_end (u : GoString) (hu : '(' ∉ u) : NoStart latencyMark u [] := by
  intro i hi hp
  obtain ⟨t, ht⟩ := hp
  have h8 := congrArg (fun l => l[8]?) ht
  simp only [List.getElem?_drop, List.append_nil] at h8
  have hl : (latencyMark ++ t)[8]? = some '(' := by
    rw [List.getElem?_append_left (by decide)]; decide
  rw [hl] at h8
  exact hu (List.getElem?_mem h8.symm)

theorem indexOf?_singleton_none (c : Char) : ∀ (u : GoString), c ∉ u → indexOf? u [c] = none
  | [], _ => by simp [indexOf?]
  | a :: t, h => by
    have ha : ¬ c = a := fun e => h (by simp [e])
    have ht : c ∉ t := fun e => h (by simp [e])
    have hp : [c].isPrefixOf (a :: t) = false := by
      simp [List.isPrefixOf, ha]
    rw [indexOf?, hp, indexOf?_singleton_none c t ht]
    rfl

/-- A comment line `#…Latency (<text>` without a closing parenthesis makes
the unit extraction panic. -/
theorem commentUnit_unclosed (a u : GoString) (ha : '(' ∉ a) (hu1 : '(' ∉ u) (hu2 : ')' ∉ u) :
    isCommentLine ('#' :: a ++ latencyMark ++ u) = true ∧
      containsStr ('#' :: a ++ latencyMark ++ u) latencyMark = true ∧
      commentUnit ('#' :: a ++ latencyMark ++ u) = .panic := by
  have hx : '(' ∉ '#' :: a := by simp [ha]
  have hline : '#' :: a ++ latencyMark ++ u = ('#' :: a) ++ (latencyMark ++ (u ++ [])) := by simp
  have hns := noStart_latencyMark_before ('#' :: a) (u ++ []) hx
  refine ⟨by simp [isCommentLine, hasPrefixStr], ?_, ?_⟩
  · rw [hline, containsStr_eq_isSome,
      indexOf?_noStart latencyMark _ _ hns (List.prefix_append _ _)]
    rfl
  · obtain ⟨w, ws, h1, h2⟩ := splitAux_noStart latencyMark _ _ hns
    rw [splitAux_sep latencyMark _ (by decide)] at h1
    obtain ⟨w', ws', h3, h4⟩ := splitAux_noStart latencyMark u [] (noStart_latencyMark_end u hu1)
    rw [h4] at h1
    cases h1
    simp only [splitAux, List.cons.injEq] at h3
    obtain ⟨rfl, rfl⟩ := h3
    have hsplit : (splitStr ('#' :: a ++ latencyMark ++ u) latencyMark)[1]? = some u := by
      rw [hline]
      simp only [splitStr, show latencyMark ≠ [] by decide, if_false, h2]
      simp
    simp only [commentUnit, hsplit, indexStr, show ")".toList = [')'] by rfl,
      indexOf?_singleton_none ')' u hu2]
    rfl

/-- C20, the code.  `GetLatency` panics on every readable file in which,
after the first line and comment lines without `Latency (`, a comment line
reads `#…Latency (<text>` without a closing parenthesis: the index of `)` is
`-1` and the slice `tokens[1][:idx]` is out of range.  So it does on the file
of the lines `header`, `# Size Latency (us`, `0 1.23`. -/
theorem GetLatency_not_total :
    (∀ (w : World) (r : Results) (f content first a u : GoString) (pre rest : List GoString),
      GoMap.get? r.osuResultFiles "osu_latency".toList = some f → f ≠ [] →
      w.readFile (w.join r.resultsDir f) = some content →
      splitStr content "\n".toList = first :: (pre ++ ('#' :: a ++ latencyMark ++ u) :: rest) →
      (∀ l ∈ pre, isCommentLine l = true ∧ containsStr l latencyMark = false) →
      '(' ∉ a → '(' ∉ u → ')' ∉ u → GetLatency w r = .panic) ∧
    GetLatency (fileWorld "header\n# Size Latency (us\n0 1.23".toList) latencyResults =
      .panic := by
  refine ⟨?_, by decide!⟩
  intro w r f content first a u pre rest hfile hf hread hlines hpre ha hu1 hu2
  obtain ⟨h1, h2, h3⟩ := commentUnit_unclosed a u ha hu1 hu2
  unfold GetLatency
  simp only [hfile, Option.getD_some, hf, if_false, hread, hlines, List.tail_cons]
  rw [latencyLines_skip _ _ _ _ _ hpre, latencyLines]
  simp only [h1, h2, h3, if_true]

/-! ## Claim on the unit check of `ComputeScore` -/

/-- The function `ComputeScore` as its steps up to the look-up of the
bandwidth record, followed by `scoreFromBandwidth`. -/
theorem ComputeScore_eq (w : World) (dataDir : GoString) :
    ComputeScore w dataDir =
      match Get w dataDir with
      | (_, some err) => .ret (none, some err)
      | (none, none) => .ret (none, some Err.loadFailed)
      | (some data, none) =>
        match LoadResultsWithPrefix w data "osu".toList with
        | (osuData, data) =>
          match GetSMBOverlap w data with
          | .panic => .panic
          | .ret (_, some err) => .ret (none, some err)
          | .ret (mpiOverhead, none) =>
            match (osuData.getD []).get? "bw".toList with
            | none => .ret (none, some Err.bandwidthMissing)
            | some bwData => scoreFromBandwidth w data mpiOverhead bwData := by
  rfl

/-- A record that `scoreFromBandwidth` returns passed the two unit checks. -/
theorem scoreFromBandwidth_record (w : World) (data : Results) (mpiOverhead : ℚ)
    (bwData : Data) (m : Metrics)
    (h : scoreFromBandwidth w data mpiOverhead bwData = .ret (some m, none)) :
    m.BandwidthUnit = "Gb/s".toList ∧ m.LatencyUnit = "us".toList := by
  unfold scoreFromBandwidth at h
  split at h
  · cases h
  · cases h
  · split at h
    · cases h
    · cases h
    · split at h
      split at h
      · cases h
      · split at h
        · cases h
        · split at h
          · cases h
          · rename_i hb
            split at h
            · cases h
            · rename_i hl
              simp only [Run.ret.injEq, Prod.mk.injEq, Option.some.injEq, and_true] at h
              subst h
              exact ⟨not_not.mp hb, not_not.mp hl⟩

/-- The unit check in the code after the look-up of the bandwidth record,
for every record found: when `GetBandwidth`, `GetLatency` and
`ComputeOverlap` succeed, a bandwidth unit other than `Gb/s` gives the
unsupported-unit error for bandwidth, a latency unit other than `us` (with
the bandwidth unit `Gb/s`) gives the one for latency, and a record is
returned with the units `Gb/s` and `us` only. -/
theorem scoreFromBandwidth_unit_check (w : World) (data : Results) (mpiOverhead : ℚ)
    (bwData : Data) (bandwidth latency : ℚ) (bandwidthUnit latencyUnit : GoString)
    (res : OverlapResult)
    (hbw : GetBandwidth w.cleanOSUline w.parseFloat (some bwData) =
      .ret (bandwidth, bandwidthUnit, none))
    (hlat : GetLatency w data = .ret (latency, latencyUnit, none))
    (hov : ComputeOverlap w.parseFloat w.overlapBenchs mpiOverhead (GetOverlapData w data).1 =
      .ret res)
    (herr : res.err = none) :
    (bandwidthUnit ≠ "Gb/s".toList →
      scoreFromBandwidth w data mpiOverhead bwData =
        .ret (none, some (Err.bandwidthUnit bandwidthUnit))) ∧
    (bandwidthUnit = "Gb/s".toList → latencyUnit ≠ "us".toList →
      scoreFromBandwidth w data mpiOverhead bwData =
        .ret (none, some (Err.latencyUnit latencyUnit))) ∧
    (bandwidthUnit = "Gb/s".toList → latencyUnit = "us".toList →
      ∃ m, scoreFromBandwidth w data mpiOverhead bwData = .ret (some m, none)) ∧
    (∀ m, scoreFromBandwidth w data mpiOverhead bwData = .ret (some m, none) →
      m.BandwidthUnit = "Gb/s".toList ∧ m.LatencyUnit = "us".toList) := by
  refine ⟨?_, ?_, ?_, fun m h => scoreFromBandwidth_record w data mpiOverhead bwData m h⟩
  · intro hb
    unfold scoreFromBandwidth
    simp only [hbw, hlat, hov, herr, hb, ne_eq, not_false_eq_true, if_true]
  · intro hb hl
    unfold scoreFromBandwidth
    simp only [hbw, hlat, hov, herr, hb, hl, ne_eq, not_true_eq_false, not_false_eq_true, if_true,
      if_false]
  · intro hb hl
    unfold scoreFromBandwidth
    simp only [hbw, hlat, hov, herr, hb, hl, ne_eq, not_true_eq_false, if_false]
    exact ⟨_, rfl⟩

namespace GoMap

variable {κ ν : Type} [DecidableEq κ]

theorem set_of_not_has (m : GoMap κ ν) (k : κ) (v : ν) (h : has m k = false) :
    set m k v = m ++ [(k, v)] := by
  induction m with
  | nil => rfl
  | cons e t ih =>
    obtain ⟨a, b⟩ := e
    by_cases hak : a = k
    · subst hak
      simp [has, get?] at h
    · have ht : has t k = false := by
        simpa [has, get?, hak] using h
      simp [set, hak, ih ht]

theorem set_append_self (m : GoMap κ ν) (k : κ) (v₀ v : ν) (h : has m k = false) :
    set (m ++ [(k, v₀)]) k v = m ++ [(k, v)] := by
  induction m with
  | nil => simp [set]
  | cons e t ih =>
    obtain ⟨a, b⟩ := e
    by_cases hak : a = k
    · subst hak
      simp [has, get?] at h
    · have ht : has t k = false := by
        simpa [has, get?, hak] using h
      simp [set, hak, ih ht]

theorem has_append (m₁ m₂ : GoMap κ ν) (k : κ) :
    has (m₁ ++ m₂) k = (has m₁ k || has m₂ k) := by
  induction m₁ with
  | nil => simp [has, get?]
  | cons e t ih =>
    obtain ⟨a, b⟩ := e
    by_cases hak : a = k
    · simp [has, get?, hak]
    · have : has (t ++ m₂) k = (has t k || has m₂ k) := ih
      simpa [has, get?, hak] using this

end GoMap

/-- The entries the first loop of `ComputeOverlap` adds to the detail map. -/
theorem overlapLoop_details (pf : GoString → Option ℚ) :
    ∀ (input : GoMap GoString (List GoString)) (acc acc' : OverlapAcc),
      overlapLoop pf input acc = .ok acc' → (GoMap.keys input).Nodup →
      (∀ k ∈ GoMap.keys input, GoMap.has acc.overlapDetails k = false) →
      acc'.overlapDetails = acc.overlapDetails ++
        (input.filter (fun e => decide (e.1 ≠ ibarrier))).map
          (fun e => (e.1, firstPercentage pf e.2)) := by
  intro input
  induction input with
  | nil =>
    intro acc acc' h _ _
    simp only [overlapLoop, Except.ok.injEq] at h
    simp [← h]
  | cons e t ih =>
    intro acc acc' h hnd hfresh
    obtain ⟨name, out⟩ := e
    have hnd' : (GoMap.keys t).Nodup := by
      simp only [GoMap.keys, List.map_cons, List.nodup_cons] at hnd
      exact hnd.2
    have hname : name ∉ GoMap.keys t := by
      simp only [GoMap.keys, List.map_cons, List.nodup_cons] at hnd
      exact hnd.1
    have hn0 : GoMap.has acc.overlapDetails name = false := hfresh name (by simp [GoMap.keys])
    have hfresh' : ∀ k ∈ GoMap.keys t, GoMap.has acc.overlapDetails k = false :=
      fun k hk => hfresh k (by simp only [GoMap.keys, List.map_cons, List.mem_cons]; exact Or.inr hk)
    by_cases hn : name = ibarrier
    · simp only [overlapLoop, hn, if_true] at h
      have := ih _ _ h hnd' hfresh'
      rw [this]
      simp [List.filter_cons, hn]
    · simp only [overlapLoop, hn, if_false, scanOverlapLines_eq] at h
      have hstep : ∀ v : ℚ, ∀ k ∈ GoMap.keys t,
          GoMap.has (acc.overlapDetails ++ [(name, v)]) k = false := by
        intro v k hk
        have hkn : ¬ name = k := fun e => hname (e ▸ hk)
        rw [GoMap.has_append, hfresh' k hk]
        simp [GoMap.has, GoMap.get?, hkn]
      cases hf : out.find? isOverlapLine with
      | none =>
        simp only [hf, Option.map_none'] at h
        rw [GoMap.set_of_not_has _ _ _ hn0] at h
        have := ih _ _ h hnd' (hstep 0)
        rw [this]
        simp [List.filter_cons, hn, firstPercentage, hf]
      | some l =>
        simp only [hf, Option.map_some'] at h
        cases hv : pf (percentText l) with
        | none => simp [hv] at h
        | some v =>
          simp only [hv] at h
          rw [GoMap.set_of_not_has _ _ _ hn0, GoMap.set_append_self _ _ _ _ hn0] at h
          have := ih _ _ h hnd' (hstep v)
          rw [this]
          simp [List.filter_cons, hn, firstPercentage, hf, hv]

/-- The entries the second loop of `ComputeOverlap` adds to the detail map:
zero entries, as many as it counts. -/
theorem reconcileLoop_details :
    ∀ (expected : List GoString) (acc res : ReconcileAcc),
      reconcileLoop expected acc = .ret res →
      ∃ news : List GoString,
        res.overlapDetails = acc.overlapDetails ++ news.map (fun k => (k, (0 : ℚ))) ∧
          res.added = acc.added + news.length := by
  intro expected
  induction expected with
  | nil =>
    intro acc res h
    simp only [reconcileLoop, Run.ret.injEq] at h
    exact ⟨[], by simp [h]⟩
  | cons a l ih =>
    intro acc res h
    by_cases ha : GoMap.has acc.overlapDetails a = true
    · simp only [reconcileLoop, ha, if_true] at h
      exact ih acc res h
    · have ha' : GoMap.has acc.overlapDetails a = false := Bool.eq_false_iff.mpr ha
      simp only [reconcileLoop, ha', Bool.false_eq_true, if_false] at h
      cases hd : acc.overlapData with
      | none => simp [hd] at h
      | some data =>
        simp only [hd] at h
        obtain ⟨news, h1, h2⟩ := ih _ res h
        refine ⟨a :: news, ?_, ?_⟩
        · rw [h1, GoMap.set_of_not_has _ _ _ ha']
          simp
        · rw [h2]
          simp only [List.length_cons, Nat.cast_add, Nat.cast_one]
          omega

theorem length_eq_excluded_add (m : GoMap GoString (List GoString)) :
    m.length = excludedCount m + (m.filter (fun e => decide (e.1 ≠ ibarrier))).length := by
  induction m with
  | nil => rfl
  | cons e t ih =>
    have ih' : t.length = (t.filter (fun e => decide (e.1 = ibarrier))).length +
        (t.filter (fun e => decide (e.1 ≠ ibarrier))).length := ih
    by_cases he : e.1 = ibarrier
    · simp [excludedCount, List.filter_cons, he] at ih' ⊢
      omega
    · simp [excludedCount, List.filter_cons, he] at ih' ⊢
      omega

/-- The detail map `ComputeOverlap` returns, entry by entry, on a map that
is not `nil`, has pairwise distinct names of which none is the MPI-overhead
key, and whose percentages parse. -/
theorem ComputeOverlap_entries (pf : GoString → Option ℚ) (expected : List GoString) (smb : ℚ)
    (m : GoMap GoString (List GoString)) (hparse : percentagesParse pf m = true)
    (hnodup : (GoMap.keys m).Nodup) (hsmb : smbKey ∉ GoMap.keys m) :
    ∃ (news : List GoString) (d' : GoMap GoString (List GoString)),
      ComputeOverlap pf expected smb (some m) =
        .ret { score := specSum pf smb m /
                 (((m.length : Int) - excludedCount m + (news.length : Int) + 1 : Int) : ℚ)
               details := some
                 ((m.filter (fun e => decide (e.1 ≠ ibarrier))).map
                    (fun e => (e.1, firstPercentage pf e.2)) ++
                  [(smbKey, max 0 smb)] ++ news.map (fun k => (k, (0 : ℚ))))
               err := none
               overlapData := some d' } ∧
      news.length = (expected.toFinset.filter (fun k => detailed m k = false)).card := by
  obtain ⟨det1, hloop, hhas⟩ :=
    overlapLoop_ok pf m { skipped := 0, overlapDetails := [], finalOverlap := 0 } hparse
  have hd1 := overlapLoop_details pf m _ _ hloop hnodup (fun k _ => rfl)
  simp only [List.nil_append] at hd1
  have hsmb' : (if smb < 0 then 0 else smb) = max 0 smb := by
    by_cases h0 : smb < 0
    · simp [h0, max_eq_left (le_of_lt h0)]
    · simp [h0, max_eq_right (not_lt.mp h0)]
  have hs1 : GoMap.has det1 smbKey = false := by
    rw [hhas smbKey]
    simp [GoMap.has, GoMap.get?, hsmb]
  have hdet : ∀ k, GoMap.has (GoMap.set det1 smbKey (max 0 smb)) k = detailed m k := by
    intro k
    rw [GoMap.has_set, hhas k]
    by_cases hk : k = smbKey
    · subst hk; simp [detailed]
    · have hk' : ¬ smbKey = k := fun e => hk e.symm
      simp [detailed, hk, hk', GoMap.has, GoMap.get?]
  obtain ⟨det', d', hrec, -, -⟩ :=
    reconcileLoop_ok expected (GoMap.set det1 smbKey (max 0 smb)) m 0
  obtain ⟨news, hn1, hn2⟩ := reconcileLoop_details expected _ _ hrec
  simp only [zero_add, Nat.cast_inj] at hn2
  simp only [hdet] at hn2 hrec
  rw [GoMap.set_of_not_has _ _ _ hs1, hd1] at hn1
  simp only at hn1
  refine ⟨news, d', ?_, hn2.symm⟩
  simp only [ComputeOverlap, Option.getD_some, hloop, hsmb', hrec, specSum, hn1, hn2]
  simp

/-- The sum of the values of the detail map is the sum `ComputeOverlap` divides. -/
theorem values_sum_entries (pf : GoString → Option ℚ) (smb : ℚ)
    (m : GoMap GoString (List GoString)) (news : List GoString) :
    (GoMap.values
        ((m.filter (fun e => decide (e.1 ≠ ibarrier))).map (fun e => (e.1, firstPercentage pf e.2))
          ++ [(smbKey, max 0 smb)] ++ news.map (fun k => (k, (0 : ℚ))))).sum =
      specSum pf smb m := by
  have h0 : ∀ l : List GoString,
      (List.map (Prod.snd ∘ fun k => (k, (0 : ℚ))) l).sum = 0 := by
    intro l
    induction l with
    | nil => rfl
    | cons a t ih => simp [ih]
  simp only [GoMap.values, specSum, List.map_append, List.map_map, List.sum_append,
    List.map_cons, List.map_nil, List.sum_cons, List.sum_nil, h0, add_zero]
  rfl

/-- C18.  Whenever `ComputeOverlap` succeeds on an input (with pairwise
distinct names, as the keys of a Go map are) that has no sub-benchmark named
`SMB mpi_overhead`, the sum of the values of the returned detail map is the
accumulated sum, the number of its entries is the divisor `inputs − skipped +
added + 1`, and so the returned score is the arithmetic mean of the detail
values; this holds for every expected list, with duplicates or with
`overlap_ibarrier` in it. -/
theorem ComputeOverlap_score_is_mean (pf : GoString → Option ℚ) (expected : List GoString)
    (smb : ℚ) (input : Option (GoMap GoString (List GoString))) (r : OverlapResult)
    (h : ComputeOverlap pf expected smb input = .ret r) (herr : r.err = none)
    (hnodup : (GoMap.keys (input.getD [])).Nodup)
    (hsmb : smbKey ∉ GoMap.keys (input.getD [])) :
    ∃ det, r.details = some det ∧
      (GoMap.values det).sum = specSum pf smb (input.getD []) ∧
      (det.length : Int) = ((input.getD []).length : Int) - excludedCount (input.getD []) +
        ((expected.toFinset.filter (fun k => detailed (input.getD []) k = false)).card : Int) + 1 ∧
      r.score = specSum pf smb (input.getD []) / ((det.length : Int) : ℚ) ∧
      r.score = (GoMap.values det).sum / (det.length : ℚ) := by
  have key : ∀ (m : GoMap GoString (List GoString)) (news : List GoString) (s : ℚ),
      news.length = (expected.toFinset.filter (fun k => detailed m k = false)).card →
      s = specSum pf smb m /
          (((m.length : Int) - excludedCount m + (news.length : Int) + 1 : Int) : ℚ) →
      ∃ det, some ((m.filter (fun e => decide (e.1 ≠ ibarrier))).map
                (fun e => (e.1, firstPercentage pf e.2)) ++
              [(smbKey, max 0 smb)] ++ news.map (fun k => (k, (0 : ℚ)))) = some det ∧
        (GoMap.values det).sum = specSum pf smb m ∧
        (det.length : Int) = (m.length : Int) - excludedCount m +
          ((expected.toFinset.filter (fun k => detailed m k = false)).card : Int) + 1 ∧
        s = specSum pf smb m / ((det.length : Int) : ℚ) ∧
        s = (GoMap.values det).sum / (det.length : ℚ) := by
    intro m news s hnews hs
    have hlen : ((((m.filter (fun e => decide (e.1 ≠ ibarrier))).map
                (fun e => (e.1, firstPercentage pf e.2)) ++
              [(smbKey, max 0 smb)] ++ news.map (fun k => (k, (0 : ℚ)))).length : Nat) : Int) =
        (m.length : Int) - excludedCount m + (news.length : Int) + 1 := by
      have := length_eq_excluded_add m
      simp only [List.length_append, List.length_map, List.length_cons, List.length_nil]
      omega
    refine ⟨_, rfl, values_sum_entries pf smb m news, ?_, ?_, ?_⟩
    · rw [hlen, hnews]
    · rw [hlen]; exact hs
    · rw [values_sum_entries, ← Int.cast_natCast, hlen]; exact hs
  cases input with
  | some m =>
    simp only [Option.getD_some] at hnodup hsmb ⊢
    by_cases hp : percentagesParse pf m = true
    · obtain ⟨news, d', hc, hnews⟩ := ComputeOverlap_entries pf expected smb m hp hnodup hsmb
      rw [hc] at h
      simp only [Run.ret.injEq] at h
      subst h
      exact key m news _ hnews rfl
    · have hp' : percentagesParse pf m = false := by simpa using hp
      simp only [ComputeOverlap, Option.getD_some, overlapLoop_error pf m _ hp',
        Run.ret.injEq] at h
      subst h
      simp at herr
  | none =>
    have hsmb' : (if smb < 0 then 0 else smb) = max 0 smb := by
      by_cases h0 : smb < 0
      · simp [h0, max_eq_left (le_of_lt h0)]
      · simp [h0, max_eq_right (not_lt.mp h0)]
    simp only [Option.getD_none] at hnodup hsmb ⊢
    simp only [ComputeOverlap, Option.getD_none, overlapLoop, hsmb'] at h
    cases hrec : reconcileLoop expected
        { overlapDetails := GoMap.set [] smbKey (max 0 smb), overlapData := none, added := 0 } with
    | panic => simp [hrec] at h
    | ret res =>
      obtain ⟨hres, hall⟩ := reconcileLoop_nil expected _ 0 res hrec
      simp only [hrec, Run.ret.injEq] at h
      subst h
      subst hres
      have hcard : (expected.toFinset.filter
          (fun k => detailed ([] : GoMap GoString (List GoString)) k = false)).card = 0 := by
        rw [Finset.card_eq_zero, Finset.filter_eq_empty_iff]
        intro k hk
        have := hall k (List.mem_toFinset.mp hk)
        by_cases hk' : k = smbKey
        · simp [detailed, hk']
        · have hk'' : ¬ smbKey = k := fun e => hk' e.symm
          simp [GoMap.has, GoMap.get?, GoMap.set, hk''] at this
      have := key [] [] ((0 + max 0 smb) / (((0 : Int) - 0 + 0 + 1 : Int) : ℚ)) hcard.symm
        (by simp [specSum, excludedCount])
      simpa [GoMap.set] using this

/-- C18 at the specification's scenario, with an expected list that names
`overlap_ibarrier` and names `overlap_allreduce` twice: the four detail values
45, 2, 0, 0 have the mean `47 / 4`, which is the score. -/
theorem ComputeOverlap_score_is_mean_witness :
    ∃ det, repeatedResult.details = some det ∧
      (GoMap.values det).sum = specSum parseDecimal 2 ((some scenarioInput).getD []) ∧
      (det.length : Int) = (((some scenarioInput).getD []).length : Int) -
        excludedCount ((some scenarioInput).getD []) +
        (([bcast, ibarrier, allreduce, allreduce].toFinset.filter
          (fun k => detailed ((some scenarioInput).getD []) k = false)).card : Int) + 1 ∧
      repeatedResult.score =
        specSum parseDecimal 2 ((some scenarioInput).getD []) / ((det.length : Int) : ℚ) ∧
      repeatedResult.score = (GoMap.values det).sum / (det.length : ℚ) :=
  ComputeOverlap_score_is_mean parseDecimal [bcast, ibarrier, allreduce, allreduce] 2
    (some scenarioInput) repeatedResult (by decide!) (by decide) (by decide) (by decide)

/-! ## The loop of `LoadResultsWithPrefix` -/

/-- A benchmark that is not selected leaves the state of the loop as it is. -/
theorem loadLoop_skip (w : World) (p bn f : GoString) (rest : List (GoString × GoString))
    (res : GoMap GoString Data) (r : Results) (hs : selected p bn = false) :
    loadLoop w p ((bn, f) :: rest) res r = loadLoop w p rest res r := by
  unfold selected at hs
  by_cases h1 : hasPrefixStr bn p = true
  · have h2 : p = "osu".toList ∧ hasPrefixStr bn "osu_noncontig_mem".toList = true := by
      simp only [h1, Bool.true_and, Bool.not_eq_false', Bool.and_eq_true,
        decide_eq_true_eq] at hs
      exact hs
    simp only [loadLoop, h1, if_true, if_pos h2]
  · simp only [loadLoop, h1, Bool.false_eq_true, if_false]

/-- A selected benchmark whose file cannot be read ends the loop. -/
theorem loadLoop_unread (w : World) (p bn f : GoString) (rest : List (GoString × GoString))
    (res : GoMap GoString Data) (r : Results) (hs : selected p bn = true)
    (hr : w.readFile (w.join r.resultsDir f) = none) :
    loadLoop w p ((bn, f) :: rest) res r = (none, r) := by
  unfold selected at hs
  simp only [Bool.and_eq_true, Bool.not_eq_true', Bool.and_eq_false_iff,
    decide_eq_false_iff_not] at hs
  have h2 : ¬ (p = "osu".toList ∧ hasPrefixStr bn "osu_noncontig_mem".toList = true) := by
    rintro ⟨a, b⟩
    rcases hs.2 with h | h
    · exact h a
    · rw [b] at h; exact Bool.noConfusion h
  simp only [loadLoop, hs.1, if_true, if_neg h2, hr]

/-- A selected benchmark whose file is read: the record of the lines with an
empty unit goes into the returned map, and the cache gets a record for the
key if and only if it had none. -/
theorem loadLoop_round (w : World) (p bn f : GoString) (rest : List (GoString × GoString))
    (res : GoMap GoString Data) (r : Results) (hs : selected p bn = true) (content : GoString)
    (hr : w.readFile (w.join r.resultsDir f) = some content) :
    ∃ r1, loadLoop w p ((bn, f) :: rest) res r =
        loadLoop w p rest
          (GoMap.set res (benchKeyOf p bn) { Text := splitStr content "\n".toList, Unit := [] })
          r1 ∧
      r1.resultsDir = r.resultsDir ∧
      ∀ k, GoMap.get? r1.OsuData k =
        if benchKeyOf p bn = k ∧ GoMap.get? r.OsuData k = none then
          some (cachedRecord (subBenchmarkOf p bn) (splitStr content "\n".toList))
        else GoMap.get? r.OsuData k := by
  unfold selected at hs
  simp only [Bool.and_eq_true, Bool.not_eq_true', Bool.and_eq_false_iff,
    decide_eq_false_iff_not] at hs
  have h2 : ¬ (p = "osu".toList ∧ hasPrefixStr bn "osu_noncontig_mem".toList = true) := by
    rintro ⟨a, b⟩
    rcases hs.2 with h | h
    · exact h a
    · rw [b] at h; exact Bool.noConfusion h
  by_cases hc : GoMap.get? r.OsuData (benchKeyOf p bn) = none
  · refine ⟨{ r with
        OsuData := GoMap.set r.OsuData (benchKeyOf p bn)
          (cachedRecord (subBenchmarkOf p bn) (splitStr content "\n".toList))
        OsuFilesMap := GoMap.set r.OsuFilesMap (benchKeyOf p bn) (w.join r.resultsDir f) },
      ?_, rfl, ?_⟩
    · simp only [benchKeyOf, subBenchmarkOf] at hc ⊢
      simp only [loadLoop, hs.1, if_true, if_neg h2, hr, hc, Option.isNone_none]
    · intro k
      simp only [GoMap.get?_set]
      by_cases hk : benchKeyOf p bn = k
      · subst hk; simp only [hc, and_self, if_true]
      · simp only [hk, false_and, if_false]
  · have hc' : (GoMap.get? r.OsuData
        (p ++ "_".toList ++ trimPrefixStr bn (p ++ "_".toList))).isNone = false := by
      simp only [benchKeyOf, subBenchmarkOf] at hc
      cases hg : GoMap.get? r.OsuData (p ++ "_".toList ++ trimPrefixStr bn (p ++ "_".toList))
      · exact absurd hg hc
      · rfl
    refine ⟨{ r with
        OsuFilesMap := GoMap.set r.OsuFilesMap (benchKeyOf p bn) (w.join r.resultsDir f) },
      ?_, rfl, ?_⟩
    · simp only [benchKeyOf, subBenchmarkOf]
      simp only [loadLoop, hs.1, if_true, if_neg h2, hr, hc', Bool.false_eq_true, if_false]
    · intro k
      by_cases hk : benchKeyOf p bn = k
      · subst hk; simp only [hc, and_false, if_false]
      · simp only [hk, false_and, if_false]

/-- A file read in the rest of the iteration is a file read in the iteration. -/
theorem loadedFrom_rest (w : World) (dir p : GoString) (e : GoString × GoString)
    (files : List (GoString × GoString)) (k sub : GoString) (lines : List GoString)
    (h : LoadedFrom w dir p files k sub lines) : LoadedFrom w dir p (e :: files) k sub lines := by
  obtain ⟨bn, f, content, hm, rest⟩ := h
  exact ⟨bn, f, content, List.mem_cons_of_mem _ hm, rest⟩

/-- The file read in the first round of the iteration. -/
theorem loadedFrom_first (w : World) (dir p bn f : GoString)
    (files : List (GoString × GoString)) (content : GoString)
    (hs : selected p bn = true) (hr : w.readFile (w.join dir f) = some content) :
    LoadedFrom w dir p ((bn, f) :: files) (benchKeyOf p bn) (subBenchmarkOf p bn)
      (splitStr content "\n".toList) :=
  ⟨bn, f, content, List.mem_cons_self _ _, hs, rfl, rfl, hr, rfl⟩

/-- The cache through the loop of `LoadResultsWithPrefix`, whether or not
the loop ends on a file that cannot be read: a record cached before stays,
and a new record is the `cachedRecord` of a file read in this call. -/
theorem loadLoop_cache (w : World) (p : GoString) :
    ∀ (files : List (GoString × GoString)) (res : GoMap GoString Data) (r : Results)
      (o : Option (GoMap GoString Data)) (r' : Results),
      loadLoop w p files res r = (o, r') →
      (∀ k d, GoMap.get? r.OsuData k = some d → GoMap.get? r'.OsuData k = some d) ∧
      (∀ k d, GoMap.get? r'.OsuData k = some d → GoMap.get? r.OsuData k = some d ∨
        ∃ sub lines, LoadedFrom w r.resultsDir p files k sub lines ∧
          d = cachedRecord sub lines) := by
  intro files
  induction files with
  | nil =>
    intro res r o r' h
    simp only [loadLoop, Prod.mk.injEq] at h
    obtain ⟨-, rfl⟩ := h
    exact ⟨fun k d hk => hk, fun k d hk => Or.inl hk⟩
  | cons e rest ih =>
    intro res r o r' h
    obtain ⟨bn, f⟩ := e
    by_cases hs : selected p bn = true
    · cases hr : w.readFile (w.join r.resultsDir f) with
      | none =>
        rw [loadLoop_unread w p bn f rest res r hs hr] at h
        simp only [Prod.mk.injEq] at h
        obtain ⟨-, rfl⟩ := h
        exact ⟨fun k d hk => hk, fun k d hk => Or.inl hk⟩
      | some content =>
        obtain ⟨r1, he, hdir, hget⟩ := loadLoop_round w p bn f rest res r hs content hr
        rw [he] at h
        obtain ⟨h1, h2⟩ := ih _ r1 o r' h
        refine ⟨?_, ?_⟩
        · intro k d hk
          apply h1
          rw [hget k, if_neg (by rw [hk]; simp), hk]
        · intro k d hk
          rcases h2 k d hk with h3 | ⟨sub, lines, h3, h4⟩
          · rw [hget k] at h3
            by_cases hc : benchKeyOf p bn = k ∧ GoMap.get? r.OsuData k = none
            · rw [if_pos hc] at h3
              right
              refine ⟨_, _, ?_, (Option.some.inj h3).symm⟩
              rw [← hc.1]
              exact loadedFrom_first w _ p bn f rest content hs hr
            · rw [if_neg hc] at h3
              exact Or.inl h3
          · right
            rw [hdir] at h3
            exact ⟨sub, lines, loadedFrom_rest w _ p _ rest k sub lines h3, h4⟩
    · have hs' : selected p bn = false := by simpa using hs
      rw [loadLoop_skip w p bn f rest res r hs'] at h
      obtain ⟨h1, h2⟩ := ih res r o r' h
      refine ⟨h1, ?_⟩
      intro k d hk
      rcases h2 k d hk with h3 | ⟨sub, lines, h3, h4⟩
      · exact Or.inl h3
      · exact Or.inr ⟨sub, lines, loadedFrom_rest w _ p _ rest k sub lines h3, h4⟩

/-- The returned map through the loop of `LoadResultsWithPrefix`: a new
record has an empty unit and the lines of a file read in this call, its key
is cached when the loop ends, and a key the loop does not write keeps its
record. -/
theorem loadLoop_returned (w : World) (p : GoString) :
    ∀ (files : List (GoString × GoString)) (res : GoMap GoString Data) (r : Results)
      (res' : GoMap GoString Data) (r' : Results),
      loadLoop w p files res r = (some res', r') →
      (∀ k d, GoMap.get? res' k = some d → GoMap.get? res k = some d ∨
        (d.Unit = [] ∧ (∃ sub, LoadedFrom w r.resultsDir p files k sub d.Text) ∧
          GoMap.has r'.OsuData k = true)) ∧
      (∀ k, k ∉ loadedKeys p files → GoMap.get? res' k = GoMap.get? res k) := by
  intro files
  induction files with
  | nil =>
    intro res r res' r' h
    simp only [loadLoop, Prod.mk.injEq, Option.some.injEq] at h
    obtain ⟨rfl, rfl⟩ := h
    exact ⟨fun k d hk => Or.inl hk, fun k _ => rfl⟩
  | cons e rest ih =>
    intro res r res' r' h
    obtain ⟨bn, f⟩ := e
    by_cases hs : selected p bn = true
    · cases hr : w.readFile (w.join r.resultsDir f) with
      | none =>
        rw [loadLoop_unread w p bn f rest res r hs hr] at h
        simp at h
      | some content =>
        obtain ⟨r1, he, hdir, hget⟩ := loadLoop_round w p bn f rest res r hs content hr
        rw [he] at h
        obtain ⟨h1, h2⟩ := ih _ r1 res' r' h
        obtain ⟨hmono, -⟩ := loadLoop_cache w p rest _ r1 _ r' h
        refine ⟨?_, ?_⟩
        · intro k d hk
          rcases h1 k d hk with h3 | ⟨hu, ⟨sub, h3⟩, hc⟩
          · rw [GoMap.get?_set] at h3
            by_cases hk' : benchKeyOf p bn = k
            · rw [if_pos hk'] at h3
              have hd := (Option.some.inj h3).symm
              right
              refine ⟨by rw [hd], ⟨subBenchmarkOf p bn, ?_⟩, ?_⟩
              · rw [hd, ← hk']
                exact loadedFrom_first w _ p bn f rest content hs hr
              · have h4 := hget k
                cases hg : GoMap.get? r.OsuData k with
                | none =>
                  rw [if_pos ⟨hk', hg⟩] at h4
                  simp only [GoMap.has, hmono k _ h4, Option.isSome_some]
                | some d0 =>
                  rw [if_neg (by rw [hg]; simp), hg] at h4
                  simp only [GoMap.has, hmono k _ h4, Option.isSome_some]
            · rw [if_neg hk'] at h3
              exact Or.inl h3
          · right
            rw [hdir] at h3
            exact ⟨hu, ⟨sub, loadedFrom_rest w _ p _ rest k sub d.Text h3⟩, hc⟩
        · intro k hk
          have hk1 : benchKeyOf p bn ≠ k := by
            intro e
            apply hk
            simp only [loadedKeys, List.filter_cons, hs, if_true, List.map_cons, e,
              List.mem_cons, true_or]
          have hk2 : k ∉ loadedKeys p rest := by
            intro e
            apply hk
            simp only [loadedKeys, List.filter_cons, hs, if_true, List.map_cons,
              List.mem_cons]
            exact Or.inr e
          rw [h2 k hk2, GoMap.get?_set, if_neg hk1]
    · have hs' : selected p bn = false := by simpa using hs
      rw [loadLoop_skip w p bn f rest res r hs'] at h
      obtain ⟨h1, h2⟩ := ih res r res' r' h
      refine ⟨?_, ?_⟩
      · intro k d hk
        rcases h1 k d hk with h3 | ⟨hu, ⟨sub, h3⟩, hc⟩
        · exact Or.inl h3
        · exact Or.inr ⟨hu, ⟨sub, loadedFrom_rest w _ p _ rest k sub d.Text h3⟩, hc⟩
      · intro k hk
        apply h2
        simpa [loadedKeys, List.filter_cons, hs'] using hk

/-- When no two selected benchmarks have the same key, the record cached
under a key this call writes, and that had no record before, is the
`cachedRecord` of the lines returned under that key. -/
theorem loadLoop_fresh (w : World) (p : GoString) :
    ∀ (files : List (GoString × GoString)) (res : GoMap GoString Data) (r : Results)
      (res' : GoMap GoString Data) (r' : Results),
      loadLoop w p files res r = (some res', r') →
      (loadedKeys p files).Nodup →
      ∀ k d, k ∈ loadedKeys p files → GoMap.get? res' k = some d →
        GoMap.get? r.OsuData k = none →
        ∃ sub, k = p ++ "_".toList ++ sub ∧
          GoMap.get? r'.OsuData k = some (cachedRecord sub d.Text) := by
  intro files
  induction files with
  | nil =>
    intro res r res' r' _ _ k d hk
    simp [loadedKeys] at hk
  | cons e rest ih =>
    intro res r res' r' h hnd k d hk hd hnone
    obtain ⟨bn, f⟩ := e
    by_cases hs : selected p bn = true
    · have hkeys : loadedKeys p ((bn, f) :: rest) = benchKeyOf p bn :: loadedKeys p rest := by
        simp only [loadedKeys, List.filter_cons, hs, if_true, List.map_cons]
      rw [hkeys] at hnd hk
      cases hr : w.readFile (w.join r.resultsDir f) with
      | none =>
        rw [loadLoop_unread w p bn f rest res r hs hr] at h
        simp at h
      | some content =>
        obtain ⟨r1, he, hdir, hget⟩ := loadLoop_round w p bn f rest res r hs content hr
        rw [he] at h
        by_cases hin : k ∈ loadedKeys p rest
        · have hne : ¬ (benchKeyOf p bn = k ∧ GoMap.get? r.OsuData k = none) := by
            rintro ⟨e, -⟩
            exact (List.nodup_cons.mp hnd).1 (e ▸ hin)
          have h1 : GoMap.get? r1.OsuData k = none := by rw [hget k, if_neg hne, hnone]
          exact ih _ r1 res' r' h (List.nodup_cons.mp hnd).2 k d hin hd h1
        · have hk' : k = benchKeyOf p bn := by
            rcases List.mem_cons.mp hk with e | e
            · exact e
            · exact absurd e hin
          obtain ⟨-, hkeep⟩ := loadLoop_returned w p rest _ r1 res' r' h
          obtain ⟨hmono, -⟩ := loadLoop_cache w p rest _ r1 _ r' h
          have h2 := hkeep k hin
          rw [GoMap.get?_set, if_pos hk'.symm, hd] at h2
          have hd' : d.Text = splitStr content "\n".toList := by
            rw [Option.some.inj h2]
          have h3 := hget k
          rw [if_pos ⟨hk'.symm, hnone⟩] at h3
          exact ⟨subBenchmarkOf p bn, hk', by rw [hd']; exact hmono k _ h3⟩
    · have hs' : selected p bn = false := by simpa using hs
      have hkeys : loadedKeys p ((bn, f) :: rest) = loadedKeys p rest := by
        simp [loadedKeys, List.filter_cons, hs']
      rw [hkeys] at hnd hk
      rw [loadLoop_skip w p bn f rest res r hs'] at h
      exact ih res r res' r' h hnd k d hk hd hnone

/-! ## Claim on `LoadResultsWithPrefix` -/

/-- The unit the loops of `LoadResultsWithPrefix` end with is the one of the
last comment line that starts with the marker, and the unit they started
with when there is no such line. -/
theorem unitOfComments_eq (marker : GoString) :
    ∀ (lines : List GoString) (unit : GoString),
      unitOfComments marker lines unit =
        match (lines.filter (fun l => hasPrefixStr l marker)).getLast? with
        | none => unit
        | some l => trimSuffixStr (trimLeftStr (trimPrefixStr l marker) "\n".toList) ")".toList := by
  intro lines
  induction lines with
  | nil => intro unit; rfl
  | cons line rest ih =>
    intro unit
    by_cases hp : hasPrefixStr line marker = true
    · simp only [unitOfComments, hp, if_true, List.filter_cons]
      rw [ih]
      cases hf : rest.filter (fun l => hasPrefixStr l marker) with
      | nil => rfl
      | cons b t =>
        rw [List.getLast?_cons_cons, List.getLast?_eq_getLast (b :: t) (by simp)]
    · simp only [unitOfComments, hp, Bool.false_eq_true, if_false, List.filter_cons]
      exact ih unit

/-- The cached record has the lines it was given and the unit `cachedUnit`. -/
theorem cachedRecord_eq (sub : GoString) (lines : List GoString) :
    cachedRecord sub lines = { Text := lines, Unit := cachedUnit sub lines } := by
  unfold cachedRecord cachedUnit declaredUnit
  by_cases h1 : sub = "latency".toList
  · have h2 : ¬ sub = "bw".toList := by
      rw [h1]; decide
    simp only [h1, h2, if_true, if_false, unitOfComments_eq]
    rw [if_neg (by decide)]
  · by_cases h2 : sub = "bw".toList
    · simp only [h1, h2, if_true, if_false, unitOfComments_eq]
      rw [if_neg (by decide), if_neg (by decide)]
    · simp only [h1, h2, if_false]

/-- The unit declared by a well-formed comment: when the last line that
starts with `marker` is `marker`, then `u`, then `)`, and `u` does not start
with a line feed, the declared unit is `u`. -/
theorem declaredUnit_header (marker u : GoString) (pre post : List GoString)
    (hpost : ∀ l ∈ post, hasPrefixStr l marker = false) (hu : u.head? ≠ some '\n') :
    declaredUnit marker (pre ++ [marker ++ u ++ ")".toList] ++ post) = u := by
  have hp : hasPrefixStr (marker ++ u ++ ")".toList) marker = true := by
    unfold hasPrefixStr
    rw [List.isPrefixOf_iff_prefix, List.append_assoc]
    exact List.prefix_append _ _
  have hfilter : (pre ++ [marker ++ u ++ ")".toList] ++ post).filter
      (fun l => hasPrefixStr l marker) =
      pre.filter (fun l => hasPrefixStr l marker) ++ [marker ++ u ++ ")".toList] := by
    have hfpost : post.filter (fun l => hasPrefixStr l marker) = [] :=
      List.filter_eq_nil_iff.mpr (fun l hl => by rw [hpost l hl]; simp)
    rw [List.filter_append, List.filter_append, hfpost, List.append_nil]
    congr 1
    simp only [List.filter_cons, hp, if_true, List.filter_nil]
  have h1 : trimPrefixStr (marker ++ u ++ ")".toList) marker = u ++ ")".toList := by
    unfold trimPrefixStr
    rw [if_pos hp, List.append_assoc, List.drop_left]
  have h2 : trimLeftStr (u ++ ")".toList) "\n".toList = u ++ ")".toList := by
    unfold trimLeftStr
    cases u with
    | nil => rfl
    | cons c t =>
      have hc : c ≠ '\n' := by
        intro e
        apply hu
        rw [e]; rfl
      simp [List.dropWhile, hc]
  have h3 : trimSuffixStr (u ++ ")".toList) ")".toList = u := by
    unfold trimSuffixStr hasSuffixStr
    have hs : (")".toList).isSuffixOf (u ++ ")".toList) = true := by
      rw [List.isSuffixOf_iff_suffix]
      exact List.suffix_append _ _
    rw [if_pos hs]
    have : (u ++ ")".toList).length - (")".toList).length = u.length := by
      simp
    rw [this, List.take_left]
  unfold declaredUnit
  rw [hfilter, List.getLast?_concat]
  simp only [h1, h2, h3]

/-- C15 (amended).  When `LoadResultsWithPrefix` returns a map, every
returned record has an empty unit and the lines of a file read in this call,
and its key is cached; a record cached before the call is still the cached
one after it; a record cached by this call has the lines of a file read in
this call and the unit `cachedUnit`, the one declared by the last
`# Size Latency (` comment for the suffix `latency`, by the last
`# Size Bandwidth (` comment for the suffix `bw` (for a comment closed by a
parenthesis, what stands between the parentheses), and none for another
suffix; and, when no two files read have the same key, the record cached by
this call under a returned key has the lines of the returned record. -/
theorem LoadResultsWithPrefix_returned_and_cached (w : World) (r : Results) (p : GoString)
    (res : GoMap GoString Data) (r' : Results)
    (h : LoadResultsWithPrefix w r p = (some res, r')) :
    (∀ k d, GoMap.get? res k = some d →
      d.Unit = [] ∧ (∃ sub, LoadedFrom w r.resultsDir p r.osuResultFiles k sub d.Text) ∧
        GoMap.has r'.OsuData k = true) ∧
    (∀ k d, GoMap.get? r.OsuData k = some d → GoMap.get? r'.OsuData k = some d) ∧
    (∀ k d, GoMap.get? r.OsuData k = none → GoMap.get? r'.OsuData k = some d →
      ∃ sub lines, LoadedFrom w r.resultsDir p r.osuResultFiles k sub lines ∧
        d.Text = lines ∧ d.Unit = cachedUnit sub lines) ∧
    ((loadedKeys p r.osuResultFiles).Nodup →
      ∀ k d, GoMap.get? res k = some d → GoMap.get? r.OsuData k = none →
        ∃ sub c, k = p ++ "_".toList ++ sub ∧ GoMap.get? r'.OsuData k = some c ∧
          c.Text = d.Text ∧ c.Unit = cachedUnit sub d.Text) ∧
    (∀ (u : GoString) (pre post : List GoString), u.head? ≠ some '\n' →
      ((∀ l ∈ post, hasPrefixStr l "# Size Latency (".toList = false) →
        cachedUnit "latency".toList
          (pre ++ ["# Size Latency (".toList ++ u ++ ")".toList] ++ post) = u) ∧
      ((∀ l ∈ post, hasPrefixStr l "# Size Bandwidth (".toList = false) →
        cachedUnit "bw".toList
          (pre ++ ["# Size Bandwidth (".toList ++ u ++ ")".toList] ++ post) = u)) ∧
    (∀ sub lines, sub ≠ "latency".toList → sub ≠ "bw".toList → cachedUnit sub lines = []) := by
  unfold LoadResultsWithPrefix at h
  obtain ⟨h1, h2⟩ := loadLoop_returned w p _ _ r res r' h
  obtain ⟨h3, h4⟩ := loadLoop_cache w p _ _ r _ r' h
  refine ⟨?_, h3, ?_, ?_, ?_, ?_⟩
  · intro k d hk
    rcases h1 k d hk with h5 | h5
    · simp [GoMap.get?] at h5
    · exact h5
  · intro k d hn hk
    rcases h4 k d hk with h5 | ⟨sub, lines, h5, h6⟩
    · rw [hn] at h5; exact Option.noConfusion h5
    · refine ⟨sub, lines, h5, ?_, ?_⟩
      · rw [h6, cachedRecord_eq]
      · rw [h6, cachedRecord_eq]
  · intro hnd k d hk hn
    have hin : k ∈ loadedKeys p r.osuResultFiles := by
      by_contra hc
      rw [h2 k hc] at hk
      simp [GoMap.get?] at hk
    obtain ⟨sub, hs1, hs2⟩ := loadLoop_fresh w p _ _ r res r' h hnd k d hin hk hn
    refine ⟨sub, _, hs1, hs2, ?_, ?_⟩
    · rw [cachedRecord_eq]
    · rw [cachedRecord_eq]
  · intro u pre post hu
    refine ⟨?_, ?_⟩
    · intro hpost
      unfold cachedUnit
      rw [if_pos rfl]
      exact declaredUnit_header _ u pre post hpost hu
    · intro hpost
      unfold cachedUnit
      rw [if_neg (by decide), if_pos rfl]
      exact declaredUnit_header _ u pre post hpost hu
  · intro sub lines h1 h2
    unfold cachedUnit
    rw [if_neg h1, if_neg h2]

/-- C15 (amended), at the example run, for the key `osu_bw`: the loader
returns the bandwidth record without a unit and caches a record with the
same lines and the unit `MB/s` of the header `# Size Bandwidth (MB/s)`; the
latency record is cached with the unit `us`. -/
theorem LoadResultsWithPrefix_returned_and_cached_witness :
    LoadResultsWithPrefix exampleWorld exampleData "osu".toList =
        (some [("osu_bw".toList, exampleBw), ("osu_latency".toList, exampleLatency)],
          exampleCached) ∧
      (∃ sub c, "osu_bw".toList = "osu".toList ++ "_".toList ++ sub ∧
        GoMap.get? exampleCached.OsuData "osu_bw".toList = some c ∧
        c.Text = exampleBw.Text ∧ c.Unit = cachedUnit sub exampleBw.Text) ∧
      cachedUnit "bw".toList exampleBw.Text = "MB/s".toList ∧
      cachedUnit "latency".toList exampleLatency.Text = "us".toList :=
  ⟨by decide!,
    (LoadResultsWithPrefix_returned_and_cached exampleWorld exampleData "osu".toList
      [("osu_bw".toList, exampleBw), ("osu_latency".toList, exampleLatency)] exampleCached
      (by decide!)).2.2.2.1
      (by decide!) "osu_bw".toList exampleBw (by decide!) (by decide!),
    by decide!, by decide!⟩

/-- C15 as stated fails.  After a first call on a run with one latency file
the returned record has no unit and the cached one has the unit `us`, so the
two differ; a second call, made after the file has changed, returns the new
lines of the file, again without a unit, and leaves the cached record as it
was, so what it returns is read from the file and is not the cached record. -/
theorem LoadResultsWithPrefix_counterexample :
    LoadResultsWithPrefix (fileWorld latencyFile) latencyResults "osu".toList =
        (some [("osu_latency".toList, { Text := latencyText, Unit := [] })], latencyCached) ∧
      GoMap.get? latencyCached.OsuData "osu_latency".toList =
        some { Text := latencyText, Unit := "us".toList } ∧
      ({ Text := latencyText, Unit := [] } : Data) ≠
        { Text := latencyText, Unit := "us".toList } ∧
      LoadResultsWithPrefix (fileWorld latencyFile) latencyCached "osu".toList =
        (some [("osu_latency".toList, { Text := latencyText, Unit := [] })], latencyCached) ∧
      LoadResultsWithPrefix (fileWorld "0 9.99".toList) latencyCached "osu".toList =
        (some [("osu_latency".toList, { Text := ["0 9.99".toList], Unit := [] })],
          latencyCached) := by
  refine ⟨?_, ?_, ?_, ?_, ?_⟩ <;> decide!

end Result
